import Mathlib

/-!
Verification of the path end-snippet uniqueness algorithm from
`raphodo/utilities.py` (`make_path_end_snippets_unique`,
`_recursive_identify_depth`, `_collect_duplicates`).

Python strings are modelled as `List Char`; `os.path.basename`,
`str.split(os.sep)`, `os.sep.join` and negative-index slicing are modelled
at the character level over the POSIX separator `'/'`.  The recursion in
`_recursive_identify_depth` does not terminate on some degenerate inputs
(e.g. two distinct paths whose chopped forms coincide forever), so it is
embedded with an explicit fuel parameter and `Option`-valued results:
`none` models a Python `RecursionError`.
-/

namespace RPD

/-- Paths are character strings, modelled as lists of characters. -/
abbrev PStr := List Char

/-- Coerce a Lean string literal to a modelled path string. -/
def pstr (s : String) : PStr := s.data

/-- The POSIX path separator, `os.sep` on the target platform. -/
def sepC : Char := '/'

/-- `path.split(os.sep)` from the source: split a string on `'/'`.
Matches Python semantics: `''.split('/') == ['']`, `'a//b'.split('/') == ['a','','b']`. -/
def splitSep (s : PStr) : List PStr := s.splitOn sepC

/-- `os.sep.join(pieces)` from the source. -/
def joinSep (l : List PStr) : PStr := List.intercalate [sepC] l

/-- `os.path.basename(path)`: the part of the string after the last `'/'`,
i.e. the last piece of the split. -/
def basename (p : PStr) : PStr := (splitSep p).getLastD []

/-- `path[:-chop]` with `chop = len(b) + 1`, from `_recursive_identify_depth`:
drop the final `len(b) + 1` characters (clamping at the empty string). -/
def chopPath (b p : PStr) : PStr := p.take (p.length - (b.length + 1))

/-- The keys of a Python dict built by insertion, in first-occurrence order. -/
def firstOccs : List PStr → List PStr
  | [] => []
  | b :: bs => b :: (firstOccs bs).filter (fun x => x ≠ b)

/-- The list of paths associated with basename `b` in the
`defaultdict(list)` built by `_collect_duplicates` (input order). -/
def occurrencesOf (b : PStr) (bps : List (PStr × PStr)) : List PStr :=
  (bps.filter (fun x => x.1 = b)).map Prod.snd

/-- `_collect_duplicates(basenames, paths)`: group paths by basename
(keys in first-occurrence order, values in input order), keeping only
groups with more than one member. -/
def collectDuplicates (basenames paths : List PStr) : List (PStr × List PStr) :=
  ((firstOccs basenames).map (fun b => (b, occurrencesOf b (basenames.zip paths)))).filter
    (fun g => 1 < g.2.length)

/-- The `for basename in duplicates:` loop body of `_recursive_identify_depth`:
`depth = max(depth, _recursive_identify_depth(*chopped, depth=depth + 1))`,
threaded over the group list.  `f` is the recursive call at the next fuel level. -/
def ridGroups (f : List PStr → Nat → Option Nat) :
    List (PStr × List PStr) → Nat → Option Nat
  | [], depth => some depth
  | (b, ps) :: rest, depth =>
    match f (ps.map (chopPath b)) (depth + 1) with
    | none => none
    | some r => ridGroups f rest (max depth r)

/-- `_recursive_identify_depth(*paths, depth)`.  `fuel` bounds the recursion
depth; `none` models a `RecursionError` (the Python recursion diverges on some
inputs). -/
def rid : Nat → List PStr → Nat → Option Nat
  | 0, _, _ => none
  | fuel + 1, paths, depth =>
    let basenames := paths.map basename
    if basenames.Nodup then some depth
    else ridGroups (fun ps d => rid fuel ps d) (collectDuplicates basenames paths) depth

/-- The body of the second `for basename, path in zip(basenames, paths):` loop of
`make_path_end_snippets_unique`: render the snippet for one path given the
resolved depth of its basename group. -/
def renderSnippet (depth : Nat) (p : PStr) : PStr :=
  if depth = 0 then basename p
  else
    let dirs := splitSep p
    let index : Int := (dirs.length : Int) - depth - 1
    let name := joinSep (dirs.drop (max index 0).toNat)
    if index = 1 then sepC :: name else name

/-- `basename in duplicates` / `duplicates[basename]` on the association list. -/
def lookupGroup (b : PStr) (groups : List (PStr × List PStr)) : Option (List PStr) :=
  (groups.find? (fun g => g.1 = b)).map Prod.snd

/-- The depth assigned to basename `b` by the first
`for basename, path in zip(...)` loop: `_recursive_identify_depth(*duplicates[b], depth=0)`
when `b` is a duplicate key, and the `defaultdict(int)` default `0` otherwise. -/
def depthFor (fuel : Nat) (groups : List (PStr × List PStr)) (b : PStr) : Option Nat :=
  match lookupGroup b groups with
  | none => some 0
  | some ps => rid fuel ps 0

/-- The `names = []; for ...: names.append(name)` loop: build the result list
left to right, failing if any depth computation failed. -/
def mapOption (f : α → Option β) : List α → Option (List β)
  | [] => some []
  | a :: l =>
    match f a with
    | none => none
    | some b => (mapOption f l).map (fun bs => b :: bs)

/-- `make_path_end_snippets_unique(*paths)`.  `fuel` bounds the recursion in
`_recursive_identify_depth`; `none` models a `RecursionError`. -/
def make_path_end_snippets_unique (fuel : Nat) (paths : List PStr) : Option (List PStr) :=
  let basenames := paths.map basename
  if basenames.Nodup then some basenames
  else
    let dups := collectDuplicates basenames paths
    mapOption (fun p => (depthFor fuel dups (basename p)).map (fun d => renderSnippet d p))
      paths

/-- A well-formed (absolute, canonical POSIX) path: it starts with the
separator and all later segments are non-empty; equivalently its split is
`[] :: segs` with `segs` non-empty and free of empty segments. -/
def wellFormed (p : PStr) : Prop :=
  (splitSep p).headD ['#'] = [] ∧ 2 ≤ (splitSep p).length ∧
    ∀ s ∈ (splitSep p).tail, s ≠ []

instance : DecidablePred wellFormed := fun p => by
  unfold wellFormed; infer_instance

/-! ### Doctest scenarios from the source, as sanity checks -/

example :
    make_path_end_snippets_unique 100 [pstr "/home/damon/photos", pstr "/home/damon/videos"] =
      some [pstr "photos", pstr "videos"] := by decide

example :
    make_path_end_snippets_unique 100
        [pstr "/home/damon/photos", pstr "/media/damon/backup1/photos",
         pstr "/media/damon/backup2/photos"] =
      some [pstr "damon/photos", pstr "backup1/photos", pstr "backup2/photos"] := by decide

example :
    make_path_end_snippets_unique 100
        [pstr "/home/damon/photos", pstr "/media/damon/backup1/photos",
         pstr "/media/damon/backup2/photos", pstr "/home/damon/videos"] =
      some [pstr "damon/photos", pstr "backup1/photos", pstr "backup2/photos",
            pstr "videos"] := by decide

example :
    make_path_end_snippets_unique 100
        [pstr "/home/damon/photos", pstr "/media/damon/backup1/photos",
         pstr "/media/damon/backup2/photos", pstr "/home/damon/videos",
         pstr "/media/damon/drive1/home/damon/photos"] =
      some [pstr "/home/damon/photos", pstr "/media/damon/backup1/photos",
            pstr "/media/damon/backup2/photos", pstr "videos",
            pstr "drive1/home/damon/photos"] := by decide

example :
    make_path_end_snippets_unique 100
        [pstr "/media/damon/backup1/photos", pstr "/media/damon/backup2/photos",
         pstr "/home/damon/videos", pstr "/media/damon/drive1/home/damon/photos"] =
      some [pstr "backup1/photos", pstr "backup2/photos", pstr "videos",
            pstr "damon/photos"] := by decide

/-! ### Grouping lemmas: `_collect_duplicates` -/

theorem zip_map_self (ps : List PStr) :
    (ps.map basename).zip ps = ps.map (fun p => (basename p, p)) := by
  have h := List.zip_map' basename id ps
  simpa using h

theorem occurrencesOf_eq_filter (b : PStr) (ps : List PStr) :
    occurrencesOf b ((ps.map basename).zip ps) = ps.filter (fun p => basename p = b) := by
  rw [zip_map_self, occurrencesOf, List.filter_map, List.map_map]
  simp [Function.comp_def]

theorem mem_firstOccs {b : PStr} {l : List PStr} : b ∈ firstOccs l ↔ b ∈ l := by
  induction l with
  | nil => simp [firstOccs]
  | cons a l ih =>
    by_cases hba : b = a
    · subst hba; simp [firstOccs]
    · simp [firstOccs, hba, List.mem_filter, ih]

theorem nodup_firstOccs (l : List PStr) : (firstOccs l).Nodup := by
  induction l with
  | nil => simp [firstOccs]
  | cons a l ih =>
    refine List.Nodup.cons ?_ (List.Nodup.filter _ ih)
    intro hmem
    have h2 := (List.mem_filter.mp hmem).2
    simp at h2

theorem find?_none_of_not_mem {b : PStr} {keys : List PStr}
    (f : PStr → PStr × List PStr) (hf : ∀ k, (f k).1 = k)
    (p : PStr × List PStr → Bool) (hb : b ∉ keys) :
    ((keys.map f).filter p).find? (fun g => g.1 = b) = none := by
  induction keys with
  | nil => simp
  | cons k keys ih =>
    have hbk : b ≠ k := fun h => hb (h ▸ List.mem_cons_self k keys)
    have hb' : b ∉ keys := fun h => hb (List.mem_cons_of_mem _ h)
    by_cases hp : p (f k) = true
    · simp only [List.map_cons, List.filter_cons, hp, if_pos]
      rw [List.find?_cons_of_neg, ih hb']
      simp [hf, hbk.symm]
    · simp only [List.map_cons, List.filter_cons, hp]
      simpa using ih hb'

theorem lookupGroup_collectDuplicates (bns ps : List PStr) (b : PStr) :
    lookupGroup b (collectDuplicates bns ps) =
      if b ∈ bns ∧ 1 < (occurrencesOf b (bns.zip ps)).length
      then some (occurrencesOf b (bns.zip ps)) else none := by
  unfold lookupGroup collectDuplicates
  have key : ∀ keys : List PStr, keys.Nodup → (b ∈ keys ↔ b ∈ bns) →
      ((keys.map (fun k => (k, occurrencesOf k (bns.zip ps)))).filter
        (fun g => 1 < g.2.length)).find? (fun g => g.1 = b) =
      if b ∈ bns ∧ 1 < (occurrencesOf b (bns.zip ps)).length
      then some (b, occurrencesOf b (bns.zip ps)) else none := by
    intro keys
    induction keys with
    | nil =>
      intro _ hmem
      simp only [List.map_nil, List.filter_nil, List.find?_nil]
      rw [if_neg]
      rintro ⟨hbb, -⟩
      simp at hmem
      exact hmem hbb
    | cons k keys ih =>
      intro hnd hmem
      by_cases hbk : b = k
      · subst hbk
        have hbbns : b ∈ bns := hmem.mp (List.mem_cons_self _ _)
        by_cases hlen : 1 < (occurrencesOf b (bns.zip ps)).length
        · simp only [List.map_cons, List.filter_cons]
          rw [if_pos (by simpa using hlen)]
          rw [List.find?_cons_of_pos _ (by simp)]
          rw [if_pos ⟨hbbns, hlen⟩]
        · simp only [List.map_cons, List.filter_cons]
          rw [if_neg (by simpa using hlen)]
          rw [find?_none_of_not_mem _ (fun k => rfl) _ (List.Nodup.not_mem hnd)]
          rw [if_neg (fun h => hlen h.2)]
      · simp only [List.map_cons, List.filter_cons]
        have step : ∀ rest : List (PStr × List PStr),
            rest.find? (fun g => g.1 = b) =
              (if b ∈ bns ∧ 1 < (occurrencesOf b (bns.zip ps)).length
               then some (b, occurrencesOf b (bns.zip ps)) else none) →
            ((if 1 < (occurrencesOf k (bns.zip ps)).length
              then (k, occurrencesOf k (bns.zip ps)) :: rest else rest)).find?
                (fun g => g.1 = b) =
              (if b ∈ bns ∧ 1 < (occurrencesOf b (bns.zip ps)).length
               then some (b, occurrencesOf b (bns.zip ps)) else none) := by
          intro rest hrest
          by_cases hk : 1 < (occurrencesOf k (bns.zip ps)).length
          · rw [if_pos hk, List.find?_cons_of_neg _ (by simp [Ne.symm hbk]), hrest]
          · rw [if_neg hk, hrest]
        have hmem' : b ∈ keys ↔ b ∈ bns := by
          constructor
          · intro h; exact hmem.mp (List.mem_cons_of_mem _ h)
          · intro h
            rcases List.mem_cons.mp (hmem.mpr h) with h' | h'
            · exact absurd h' hbk
            · exact h'
        have hrest := ih (List.Nodup.of_cons hnd) hmem'
        simpa only [decide_eq_true_eq] using step _ hrest
  rw [key (firstOccs bns) (nodup_firstOccs bns) mem_firstOccs]
  by_cases h : b ∈ bns ∧ 1 < (occurrencesOf b (bns.zip ps)).length
  · rw [if_pos h, if_pos h]; rfl
  · rw [if_neg h, if_neg h]; rfl

theorem mem_map_basename_of_filter_len {ps : List PStr} {b : PStr}
    (h : 1 < (ps.filter (fun p => basename p = b)).length) : b ∈ ps.map basename := by
  rcases List.exists_mem_of_length_pos (Nat.lt_of_lt_of_le Nat.zero_lt_one (Nat.le_of_lt h))
    with ⟨p, hp⟩
  have := List.mem_filter.mp hp
  exact List.mem_map.mpr ⟨p, this.1, by simpa using this.2⟩

theorem depthFor_char (fuel : Nat) (ps : List PStr) (b : PStr) :
    depthFor fuel (collectDuplicates (ps.map basename) ps) b =
      if 1 < (ps.filter (fun p => basename p = b)).length
      then rid fuel (ps.filter (fun p => basename p = b)) 0
      else some 0 := by
  unfold depthFor
  rw [lookupGroup_collectDuplicates, occurrencesOf_eq_filter]
  by_cases h : 1 < (ps.filter (fun p => basename p = b)).length
  · rw [if_pos ⟨mem_map_basename_of_filter_len h, h⟩, if_pos h]
  · rw [if_neg (fun hc => h hc.2), if_neg h]

/-! ### `mapOption` and the pointwise characterisation of the function -/

theorem mapOption_eq_some_iff {α β : Type _} {f : α → Option β} {l : List α}
    {out : List β} :
    mapOption f l = some out ↔ List.Forall₂ (fun a b => f a = some b) l out := by
  induction l generalizing out with
  | nil =>
    simp only [mapOption, List.forall₂_nil_left_iff]
    exact ⟨fun h => (Option.some.injEq _ _ ▸ h).symm, fun h => by simp [h]⟩
  | cons a l ih =>
    cases hfa : f a with
    | none =>
      simp only [mapOption, hfa, List.forall₂_cons_left_iff]
      constructor
      · intro h; cases h
      · rintro ⟨b, u, hb, -, -⟩
        exact Option.noConfusion hb
    | some b =>
      simp only [mapOption, hfa, List.forall₂_cons_left_iff]
      constructor
      · intro h
        cases hml : mapOption f l with
        | none => rw [hml] at h; simp at h
        | some u =>
          rw [hml] at h
          simp only [Option.map_some', Option.some.injEq] at h
          exact ⟨b, u, rfl, ih.mp hml, h.symm⟩
      · rintro ⟨b', u, hb', hu, rfl⟩
        cases hb'
        rw [ih.mpr hu]
        rfl

theorem filter_basename_le_one {paths : List PStr}
    (hnd : (paths.map basename).Nodup) (b : PStr) :
    (paths.filter (fun p => basename p = b)).length ≤ 1 := by
  induction paths with
  | nil => simp
  | cons p ps ih =>
    rw [List.map_cons, List.nodup_cons] at hnd
    by_cases h : basename p = b
    · have hnil : ps.filter (fun p => basename p = b) = [] := by
        rw [List.filter_eq_nil_iff]
        intro q hq
        simp only [decide_eq_true_eq]
        intro hqb
        exact hnd.1 (List.mem_map.mpr ⟨q, hq, by rw [hqb, h]⟩)
      simp [List.filter_cons, h, hnil]
    · simpa [List.filter_cons, h] using ih hnd.2

theorem renderSnippet_zero (p : PStr) : renderSnippet 0 p = basename p := rfl

/-- Pointwise characterisation: if the function returns a result, then the
result has the input's length and each entry is the snippet of the
corresponding input path at the depth the path's base-name group resolved
to (`0` for paths whose base name is unique). -/
theorem make_char {fuel : Nat} {paths out : List PStr}
    (h : make_path_end_snippets_unique fuel paths = some out) :
    out.length = paths.length ∧
    ∀ i, i < paths.length → ∃ d,
      depthFor fuel (collectDuplicates (paths.map basename) paths)
        (basename (paths.getD i [])) = some d ∧
      out.getD i [] = renderSnippet d (paths.getD i []) := by
  unfold make_path_end_snippets_unique at h
  by_cases hnd : (paths.map basename).Nodup
  · rw [if_pos hnd] at h
    simp only [Option.some.injEq] at h
    subst h
    refine ⟨by simp, fun i hi => ⟨0, ?_, ?_⟩⟩
    · rw [depthFor_char, if_neg]
      intro hlt
      have hle := filter_basename_le_one hnd (basename (paths.getD i []))
      omega
    · rw [renderSnippet_zero]
      rw [List.getD_eq_getElem?_getD, List.getD_eq_getElem?_getD,
        List.getElem?_map]
      rw [List.getElem?_eq_getElem hi]
      rfl
  · rw [if_neg hnd] at h
    have hall := mapOption_eq_some_iff.mp h
    have hlen := hall.length_eq
    refine ⟨hlen.symm, fun i hi => ?_⟩
    have hi' : i < out.length := by omega
    have hrel := (List.forall₂_iff_get.mp hall).2 i hi hi'
    cases hd : depthFor fuel (collectDuplicates (paths.map basename) paths)
        (basename (paths.get ⟨i, hi⟩)) with
    | none => rw [hd] at hrel; simp at hrel
    | some d =>
      rw [hd] at hrel
      simp only [Option.map_some', Option.some.injEq] at hrel
      refine ⟨d, ?_, ?_⟩
      · rw [List.getD_eq_getElem?_getD, List.getElem?_eq_getElem hi]
        simpa using hd
      · rw [List.getD_eq_getElem?_getD, List.getElem?_eq_getElem hi',
          List.getD_eq_getElem?_getD, List.getElem?_eq_getElem hi]
        simpa using hrel.symm

/-! ### C3: unique base names give the base names back -/

/-- C3: if the base names of the input paths are pairwise distinct, the
function returns exactly the list of base names, in input order. -/
theorem c3_unique_basenames (fuel : Nat) (paths : List PStr)
    (h : (paths.map basename).Nodup) :
    make_path_end_snippets_unique fuel paths = some (paths.map basename) := by
  unfold make_path_end_snippets_unique
  rw [if_pos h]

/-- Witness for C3 at the first doctest input. -/
theorem c3_unique_basenames_witness :
    ([pstr "/home/damon/photos", pstr "/home/damon/videos"].map basename).Nodup ∧
    make_path_end_snippets_unique 3 [pstr "/home/damon/photos", pstr "/home/damon/videos"] =
      some ([pstr "/home/damon/photos", pstr "/home/damon/videos"].map basename) :=
  ⟨by decide, c3_unique_basenames 3 _ (by decide)⟩

/-! ### C2: length preservation and positional correspondence -/

theorem getD_lt {l : List PStr} {i : Nat} (h : i < l.length) : l.getD i [] = l[i] := by
  rw [List.getD_eq_getElem?_getD, List.getElem?_eq_getElem h]
  rfl

/-- C2: any returned list has the input's length, and is the image of the
input list under a per-path snippet map (a single depth per base name), so
the i-th output is derived from the i-th input path, preserving order. -/
theorem c2_length_and_order (fuel : Nat) (paths out : List PStr)
    (h : make_path_end_snippets_unique fuel paths = some out) :
    out.length = paths.length ∧
    ∃ dm : PStr → Nat,
      out = paths.map (fun p => renderSnippet (dm (basename p)) p) := by
  obtain ⟨hlen, hpt⟩ := make_char h
  refine ⟨hlen,
    fun b => (depthFor fuel (collectDuplicates (paths.map basename) paths) b).getD 0, ?_⟩
  apply List.ext_getElem (by simpa using hlen)
  intro i h1 h2
  obtain ⟨d, hd, hout⟩ := hpt i (by omega)
  rw [getD_lt h1, getD_lt (by omega : i < paths.length)] at hout
  rw [getD_lt (by omega : i < paths.length)] at hd
  rw [hout, List.getElem_map]
  show renderSnippet d paths[i] = renderSnippet ((depthFor _ _ _).getD 0) paths[i]
  rw [hd]
  rfl

/-- Witness for C2 at the second doctest input. -/
theorem c2_length_and_order_witness :
    (make_path_end_snippets_unique 100
        [pstr "/home/damon/photos", pstr "/media/damon/backup1/photos",
         pstr "/media/damon/backup2/photos"] =
      some [pstr "damon/photos", pstr "backup1/photos", pstr "backup2/photos"]) ∧
    ([pstr "damon/photos", pstr "backup1/photos", pstr "backup2/photos"] :
        List PStr).length = 3 ∧
    (∃ dm : PStr → Nat,
      ([pstr "damon/photos", pstr "backup1/photos", pstr "backup2/photos"] : List PStr) =
        ([pstr "/home/damon/photos", pstr "/media/damon/backup1/photos",
          pstr "/media/damon/backup2/photos"] : List PStr).map
          (fun p => renderSnippet (dm (basename p)) p)) := by
  refine ⟨by decide, ?_⟩
  have h := c2_length_and_order 100
    [pstr "/home/damon/photos", pstr "/media/damon/backup1/photos",
     pstr "/media/damon/backup2/photos"]
    [pstr "damon/photos", pstr "backup1/photos", pstr "backup2/photos"] (by decide)
  exact ⟨h.1, h.2⟩

/-! ### C4: how depth is tracked across sub-groups -/

/-- C4 counterexample: in
`['/p/q/a/x/f', '/p/q/b/x/f', '/p/q/c/y/f']` all three base names collide.
After one chop the third path's sub-group (basename `y`) is already unique —
its basename occurs once among the chopped paths — so under the claim the
third output would be the depth-1 snippet `y/f`.  The code instead shares the
group-wide depth 2 and outputs `c/y/f`. -/
theorem c4_counterexample :
    make_path_end_snippets_unique 100
        [pstr "/p/q/a/x/f", pstr "/p/q/b/x/f", pstr "/p/q/c/y/f"] =
      some [pstr "a/x/f", pstr "b/x/f", pstr "c/y/f"] ∧
    (([pstr "/p/q/a/x/f", pstr "/p/q/b/x/f", pstr "/p/q/c/y/f"].map
        (fun p => chopPath (basename p) p)).filter
      (fun q => basename q =
        basename (chopPath (basename (pstr "/p/q/c/y/f")) (pstr "/p/q/c/y/f")))).length = 1 ∧
    renderSnippet 1 (pstr "/p/q/c/y/f") = pstr "y/f" ∧
    pstr "c/y/f" ≠ pstr "y/f" := by
  refine ⟨by decide, by decide, by decide, by decide⟩

/-- C4 (amended): the resolved depth is tracked per originally colliding base
name — it is computed by `_recursive_identify_depth` from that base name's
group alone, independently of other base-name groups — but within a group it
is a single value shared by every member: members whose sub-group resolves at
a shallower depth are still rendered at the group's final depth. -/
theorem c4_amended (fuel : Nat) (paths out : List PStr)
    (h : make_path_end_snippets_unique fuel paths = some out)
    (i : Nat) (hi : i < paths.length) :
    (1 < (paths.filter
        (fun p => basename p = basename (paths.getD i []))).length →
      ∃ d, rid fuel
          (paths.filter (fun p => basename p = basename (paths.getD i []))) 0 = some d ∧
        out.getD i [] = renderSnippet d (paths.getD i [])) ∧
    ((paths.filter
        (fun p => basename p = basename (paths.getD i []))).length ≤ 1 →
      out.getD i [] = basename (paths.getD i [])) := by
  obtain ⟨hlen, hpt⟩ := make_char h
  obtain ⟨d, hd, hout⟩ := hpt i hi
  rw [depthFor_char] at hd
  constructor
  · intro hdup
    rw [if_pos hdup] at hd
    exact ⟨d, hd, hout⟩
  · intro hle
    rw [if_neg (by omega)] at hd
    cases hd
    rw [hout, renderSnippet_zero]

/-- Witness for C4 (amended), at the counterexample input: the `photos`-like
group `f` resolves to the shared depth 2 and the third path is rendered with
it. -/
theorem c4_amended_witness :
    ∃ d, rid 100
        ([pstr "/p/q/a/x/f", pstr "/p/q/b/x/f", pstr "/p/q/c/y/f"].filter
          (fun p => basename p =
            basename ([pstr "/p/q/a/x/f", pstr "/p/q/b/x/f",
              pstr "/p/q/c/y/f"].getD 2 []))) 0 = some d ∧
      ([pstr "a/x/f", pstr "b/x/f", pstr "c/y/f"] : List PStr).getD 2 [] =
        renderSnippet d ([pstr "/p/q/a/x/f", pstr "/p/q/b/x/f",
          pstr "/p/q/c/y/f"].getD 2 []) := by
  have h := c4_amended 100
    [pstr "/p/q/a/x/f", pstr "/p/q/b/x/f", pstr "/p/q/c/y/f"]
    [pstr "a/x/f", pstr "b/x/f", pstr "c/y/f"] (by decide) 2 (by decide)
  exact h.1 (by decide)

/-! ### C5: the documented scenario 4 -/

/-- C5 counterexample: on the scenario-4 input the fifth output is the
four-segment snippet `drive1/home/damon/photos`, not the full path string
`/media/damon/drive1/home/damon/photos` the claim asserts (the source's own
doctest agrees with the code here). -/
theorem c5_counterexample :
    make_path_end_snippets_unique 100
        [pstr "/home/damon/photos", pstr "/media/damon/backup1/photos",
         pstr "/media/damon/backup2/photos", pstr "/home/damon/videos",
         pstr "/media/damon/drive1/home/damon/photos"] =
      some [pstr "/home/damon/photos", pstr "/media/damon/backup1/photos",
            pstr "/media/damon/backup2/photos", pstr "videos",
            pstr "drive1/home/damon/photos"] ∧
    pstr "drive1/home/damon/photos" ≠ pstr "/media/damon/drive1/home/damon/photos" := by
  refine ⟨by decide, by decide⟩

/-- C5 (amended): on the scenario-4 input the three colliding original paths
are output as their full original path strings, `videos` is unchanged, and the
newly added fifth path is output as the four-segment snippet
`drive1/home/damon/photos` (not its full path string). -/
theorem c5_amended :
    make_path_end_snippets_unique 100
        [pstr "/home/damon/photos", pstr "/media/damon/backup1/photos",
         pstr "/media/damon/backup2/photos", pstr "/home/damon/videos",
         pstr "/media/damon/drive1/home/damon/photos"] =
      some [pstr "/home/damon/photos", pstr "/media/damon/backup1/photos",
            pstr "/media/damon/backup2/photos", pstr "videos",
            pstr "drive1/home/damon/photos"] := by
  decide

/-! ### String-level lemmas: split, join, basename, chop -/

theorem splitSep_ne_nil (s : PStr) : splitSep s ≠ [] := List.splitOnP_ne_nil _ s

theorem joinSep_splitSep (s : PStr) : joinSep (splitSep s) = s :=
  List.intercalate_splitOn s sepC

theorem splitSep_joinSep {l : List PStr} (hne : l ≠ []) (hfree : ∀ x ∈ l, sepC ∉ x) :
    splitSep (joinSep l) = l :=
  List.splitOn_intercalate l sepC hfree hne

theorem splitSep_nil : splitSep [] = [[]] := rfl

theorem splitSep_cons (c : Char) (s : PStr) :
    splitSep (c :: s) =
      if c = sepC then [] :: splitSep s else (splitSep s).modifyHead (c :: ·) := by
  show (c :: s).splitOn sepC = _
  rw [List.splitOn, List.splitOnP_cons]
  by_cases h : c = sepC
  · rw [if_pos (by simpa using h), if_pos h]
    rfl
  · rw [if_neg (by simpa using h), if_neg h]
    rfl

theorem sep_not_mem_splitSep (s : PStr) : ∀ x ∈ splitSep s, sepC ∉ x := by
  induction s with
  | nil =>
    intro x hx
    rw [splitSep_nil] at hx
    simp only [List.mem_singleton] at hx
    subst hx
    simp
  | cons c s ih =>
    intro x hx
    rw [splitSep_cons] at hx
    by_cases hc : c = sepC
    · rw [if_pos hc] at hx
      rcases List.mem_cons.mp hx with rfl | hx'
      · simp
      · exact ih x hx'
    · rw [if_neg hc] at hx
      cases hsp : splitSep s with
      | nil => exact absurd hsp (splitSep_ne_nil s)
      | cons hd tl =>
        rw [hsp, List.modifyHead_cons] at hx
        rcases List.mem_cons.mp hx with rfl | hx'
        · intro hmem
          rcases List.mem_cons.mp hmem with h1 | h2
          · exact hc h1.symm
          · exact ih hd (hsp ▸ List.mem_cons_self hd tl) h2
        · exact ih x (hsp ▸ List.mem_cons_of_mem hd hx')

theorem joinSep_nil : joinSep [] = [] := rfl

theorem joinSep_singleton (a : PStr) : joinSep [a] = a := by
  simp [joinSep, List.intercalate]

theorem joinSep_cons_cons (a b : PStr) (t : List PStr) :
    joinSep (a :: b :: t) = a ++ sepC :: joinSep (b :: t) := by
  simp [joinSep, List.intercalate, List.intersperse_cons_cons]

theorem joinSep_append_singleton {l : List PStr} (h : l ≠ []) (b : PStr) :
    joinSep (l ++ [b]) = joinSep l ++ sepC :: b := by
  induction l with
  | nil => cases h rfl
  | cons a l ih =>
    cases l with
    | nil =>
      rw [joinSep_singleton]
      show joinSep (a :: [b]) = _
      rw [joinSep_cons_cons, joinSep_singleton]
    | cons a' l' =>
      have ih' := ih (List.cons_ne_nil a' l')
      rw [show (a :: a' :: l') ++ [b] = a :: a' :: (l' ++ [b]) by simp]
      rw [joinSep_cons_cons]
      rw [show a' :: (l' ++ [b]) = (a' :: l') ++ [b] by simp]
      rw [ih', joinSep_cons_cons, List.append_assoc]
      rfl

theorem basename_joinSep {l : List PStr} (hfree : ∀ x ∈ l, sepC ∉ x) :
    basename (joinSep l) = l.getLastD [] := by
  cases l with
  | nil => rfl
  | cons a t =>
    show (splitSep (joinSep (a :: t))).getLastD [] = _
    rw [splitSep_joinSep (by simp) hfree]

theorem chopPath_joinSep {l : List PStr} :
    chopPath (l.getLastD []) (joinSep l) = joinSep l.dropLast := by
  rcases l.eq_nil_or_concat with rfl | ⟨l', b, rfl⟩
  · rfl
  · simp only [List.concat_eq_append]
    rw [List.dropLast_concat]
    cases l' with
    | nil =>
      simp only [List.nil_append]
      rw [joinSep_singleton, joinSep_nil]
      show b.take (b.length - (([b].getLastD []).length + 1)) = []
      rw [show ([b].getLastD []) = b from rfl]
      rw [Nat.sub_eq_zero_of_le (Nat.le_succ _), List.take_zero]
    | cons a t =>
      rw [joinSep_append_singleton (by simp) b]
      show (joinSep (a :: t) ++ sepC :: b).take
        ((joinSep (a :: t) ++ sepC :: b).length - (((a :: t ++ [b]).getLastD []).length + 1)) =
        joinSep (a :: t)
      rw [show ((a :: t ++ [b]).getLastD []) = b by
        rw [List.getLastD_eq_getLast?, List.getLast?_concat]; rfl]
      rw [List.length_append, List.length_cons]
      rw [show (joinSep (a :: t)).length + (b.length + 1) - (b.length + 1) =
        (joinSep (a :: t)).length by omega]
      simp

/-! ### The chop chain of a path and its basenames -/

/-- Iterated chopping, as performed level by level inside
`_recursive_identify_depth`: each step removes `len(basename) + 1` trailing
characters. -/
def chainIter (p : PStr) : Nat → PStr
  | 0 => p
  | k + 1 => chopPath (basename (chainIter p k)) (chainIter p k)

theorem chainIter_eq (p : PStr) (k : Nat) :
    chainIter p k = joinSep ((splitSep p).take ((splitSep p).length - k)) := by
  induction k with
  | zero =>
    rw [chainIter, Nat.sub_zero, List.take_of_length_le (le_refl _), joinSep_splitSep]
  | succ k ih =>
    have hfree : ∀ x ∈ (splitSep p).take ((splitSep p).length - k), sepC ∉ x :=
      fun x hx => sep_not_mem_splitSep p x (List.mem_of_mem_take hx)
    rw [chainIter, ih, basename_joinSep hfree, chopPath_joinSep]
    congr 1
    rw [List.dropLast_eq_take, List.take_take, List.length_take]
    congr 1
    omega

/-- The basename probed at level `k` of the chop chain. -/
def bnChain (p : PStr) (k : Nat) : PStr := basename (chainIter p k)

theorem bnChain_eq (p : PStr) (k : Nat) :
    bnChain p k = ((splitSep p).take ((splitSep p).length - k)).getLastD [] := by
  rw [bnChain, chainIter_eq,
    basename_joinSep (fun x hx => sep_not_mem_splitSep p x (List.mem_of_mem_take hx))]

/-! ### Suffix lemmas -/

theorem getLastD_pos {l : List PStr} (h : 0 < l.length) :
    l.getLastD [] = l[l.length - 1] := by
  rcases l.eq_nil_or_concat with rfl | ⟨l', b, rfl⟩
  · simp at h
  · simp

theorem getLastD_take {l : List PStr} {m : Nat} (h0 : 0 < m) (hm : m ≤ l.length) :
    (l.take m).getLastD [] = l[m - 1] := by
  rw [getLastD_pos (by simp; omega)]
  rw [List.getElem_take]
  congr 1
  simp
  omega

theorem getLastD_drop {l : List PStr} {i : Nat} (h : i < l.length) :
    (l.drop i).getLastD [] = l.getLastD [] := by
  rw [getLastD_pos (by simp; omega), getLastD_pos (by omega)]
  rw [List.getElem_drop]
  congr 1
  simp
  omega

theorem joinSep_drop_suffix (l : List PStr) (i : Nat) :
    joinSep (l.drop i) <:+ joinSep l := by
  induction l generalizing i with
  | nil => simp
  | cons a t ih =>
    cases i with
    | zero => exact List.suffix_refl _
    | succ j =>
      refine List.IsSuffix.trans (ih j) ?_
      cases t with
      | nil => simp [joinSep_nil]
      | cons b t' =>
        rw [joinSep_cons_cons]
        exact (List.suffix_cons sepC _).trans (List.suffix_append a _)

theorem getLastD_eq_joinSep_drop {l : List PStr} (h : l ≠ []) :
    joinSep (l.drop (l.length - 1)) = l.getLastD [] := by
  rcases l.eq_nil_or_concat with rfl | ⟨l', b, rfl⟩
  · cases h rfl
  · simp only [List.concat_eq_append]
    have hd : (l' ++ [b]).drop ((l' ++ [b]).length - 1) = [b] := by
      rw [List.length_append, List.length_singleton,
        show l'.length + 1 - 1 = l'.length by omega, List.drop_left]
    rw [hd, joinSep_singleton]
    simp

theorem basename_suffix (p : PStr) : basename p <:+ p := by
  have h := joinSep_drop_suffix (splitSep p) ((splitSep p).length - 1)
  rw [getLastD_eq_joinSep_drop (splitSep_ne_nil p)] at h
  show (splitSep p).getLastD [] <:+ p
  conv_rhs => rw [← joinSep_splitSep p]
  exact h

theorem basename_suffix_joinSep_drop {p : PStr} (i : Nat) (h : i < (splitSep p).length) :
    basename p <:+ joinSep ((splitSep p).drop i) := by
  have hne : (splitSep p).drop i ≠ [] := by
    intro hcon
    have := congrArg List.length hcon
    simp at this
    omega
  have heq : basename p = ((splitSep p).drop i).getLastD [] := by
    rw [getLastD_drop h]
    rfl
  rw [heq, ← getLastD_eq_joinSep_drop hne]
  have := joinSep_drop_suffix ((splitSep p).drop i) (((splitSep p).drop i).length - 1)
  exact this

/-- Every rendered snippet is a trailing substring of its path and has the
path's basename as a suffix. -/
theorem renderSnippet_suffix (d : Nat) (p : PStr) :
    renderSnippet d p <:+ p ∧ basename p <:+ renderSnippet d p := by
  by_cases hd : d = 0
  · subst hd
    rw [renderSnippet_zero]
    exact ⟨basename_suffix p, List.suffix_refl _⟩
  · unfold renderSnippet
    rw [if_neg hd]
    have hn1 : 1 ≤ (splitSep p).length := by
      have := splitSep_ne_nil p
      cases hcon : splitSep p with
      | nil => exact absurd hcon this
      | cons a t => simp [hcon]
    by_cases h1 : ((splitSep p).length : Int) - d - 1 = 1
    · rw [if_pos h1]
      have hlen : (splitSep p).length = d + 2 := by omega
      have hk : (max (((splitSep p).length : Int) - d - 1) 0).toNat = 1 := by
        rw [h1]; rfl
      rw [hk]
      obtain ⟨a, b, t, hab⟩ : ∃ a b t, splitSep p = a :: b :: t := by
        cases hsp : splitSep p with
        | nil => rw [hsp] at hlen; simp at hlen
        | cons a t =>
          cases ht : t with
          | nil =>
            rw [hsp, ht] at hlen
            simp at hlen
          | cons b t' =>
            subst ht
            exact ⟨a, b, t', rfl⟩
      constructor
      · conv_rhs => rw [← joinSep_splitSep p]
        rw [hab, joinSep_cons_cons]
        show sepC :: joinSep ((a :: b :: t).drop 1) <:+ _
        rw [List.drop_one, List.tail_cons]
        exact List.suffix_append a (sepC :: joinSep (b :: t))
      · refine (basename_suffix_joinSep_drop 1 (by omega)).trans ?_
        exact List.suffix_cons sepC _
    · rw [if_neg h1]
      set k := (max (((splitSep p).length : Int) - d - 1) 0).toNat with hkdef
      have hk : k < (splitSep p).length := by
        have hd1 : 1 ≤ d := by omega
        rw [hkdef]
        rcases le_or_lt (((splitSep p).length : Int) - d - 1) 0 with hle | hlt
        · rw [max_eq_right hle]
          omega
        · rw [max_eq_left (le_of_lt hlt)]
          omega
      constructor
      · conv_rhs => rw [← joinSep_splitSep p]
        exact joinSep_drop_suffix _ _
      · exact basename_suffix_joinSep_drop _ hk

/-! ### C9: outputs are trailing substrings ending in the base name -/

/-- C9: every output string is a string suffix of its corresponding input
path, and ends with that path's base name (which covers the base-name case,
the depth>0 snippet case, the leading-separator case and the full-path clamp
case of the rendering step). -/
theorem c9_output_suffix (fuel : Nat) (paths out : List PStr)
    (h : make_path_end_snippets_unique fuel paths = some out)
    (i : Nat) (hi : i < paths.length) :
    out.getD i [] <:+ paths.getD i [] ∧
    basename (paths.getD i []) <:+ out.getD i [] := by
  obtain ⟨hlen, hpt⟩ := make_char h
  obtain ⟨d, hd, hout⟩ := hpt i hi
  rw [hout]
  exact renderSnippet_suffix d (paths.getD i [])

/-- Witness for C9 at the second doctest input, first path. -/
theorem c9_output_suffix_witness :
    ([pstr "damon/photos", pstr "backup1/photos", pstr "backup2/photos"] :
        List PStr).getD 0 [] <:+
      ([pstr "/home/damon/photos", pstr "/media/damon/backup1/photos",
        pstr "/media/damon/backup2/photos"] : List PStr).getD 0 [] ∧
    basename (([pstr "/home/damon/photos", pstr "/media/damon/backup1/photos",
        pstr "/media/damon/backup2/photos"] : List PStr).getD 0 []) <:+
      ([pstr "damon/photos", pstr "backup1/photos", pstr "backup2/photos"] :
        List PStr).getD 0 [] :=
  c9_output_suffix 100
    [pstr "/home/damon/photos", pstr "/media/damon/backup1/photos",
     pstr "/media/damon/backup2/photos"]
    [pstr "damon/photos", pstr "backup1/photos", pstr "backup2/photos"]
    (by decide) 0 (by decide)

/-! ### C6: the shape of a duplicate-group snippet -/

/-- The spec's description of the rendering step: join the last `depth+1`
segments with the separator; if the start index is `0` or negative use the
full original path, unmodified; prefix a single leading separator exactly
when the start index equals `1`. -/
def snippetSpec (depth : Nat) (p : PStr) : PStr :=
  let dirs := splitSep p
  let index : Int := (dirs.length : Int) - depth - 1
  if index ≤ 0 then p
  else (if index = 1 then [sepC] else []) ++ joinSep (dirs.drop index.toNat)

theorem renderSnippet_eq_snippetSpec {d : Nat} (hd : d ≠ 0) (p : PStr) :
    renderSnippet d p = snippetSpec d p := by
  simp only [renderSnippet, snippetSpec]
  rw [if_neg hd]
  rcases le_or_lt (((splitSep p).length : Int) - d - 1) 0 with hle | hlt
  · rw [if_pos hle, if_neg (by omega : ¬ (((splitSep p).length : Int) - d - 1 = 1))]
    rw [max_eq_right hle]
    show joinSep ((splitSep p).drop (0 : Int).toNat) = p
    rw [Int.toNat_zero, List.drop_zero, joinSep_splitSep]
  · rw [if_neg (by omega : ¬ (((splitSep p).length : Int) - d - 1 ≤ 0))]
    rw [max_eq_left (le_of_lt hlt)]
    by_cases h1 : ((splitSep p).length : Int) - d - 1 = 1
    · rw [if_pos h1, if_pos h1]
      rfl
    · rw [if_neg h1, if_neg h1]
      rfl

/-! #### Lower bounds for the resolved depth -/

theorem ridGroups_ge {f : List PStr → Nat → Option Nat}
    (hf : ∀ ps d r, f ps d = some r → d ≤ r) :
    ∀ groups depth r, ridGroups f groups depth = some r → depth ≤ r := by
  intro groups
  induction groups with
  | nil =>
    intro depth r h
    simp only [ridGroups, Option.some.injEq] at h
    omega
  | cons g rest ih =>
    intro depth r h
    rcases g with ⟨b, ps⟩
    cases hf1 : f (ps.map (chopPath b)) (depth + 1) with
    | none =>
      simp only [ridGroups, hf1] at h
      exact Option.noConfusion h
    | some r1 =>
      simp only [ridGroups, hf1] at h
      have := ih _ _ h
      omega

theorem rid_ge_depth : ∀ fuel paths depth r, rid fuel paths depth = some r → depth ≤ r := by
  intro fuel
  induction fuel with
  | zero => intro paths depth r h; exact Option.noConfusion h
  | succ fuel ih =>
    intro paths depth r h
    simp only [rid] at h
    by_cases hnd : (paths.map basename).Nodup
    · rw [if_pos hnd] at h
      simp only [Option.some.injEq] at h
      omega
    · rw [if_neg hnd] at h
      exact ridGroups_ge (fun ps d r' h' => ih ps d r' h') _ _ _ h

theorem ridGroups_ge_succ {f : List PStr → Nat → Option Nat}
    (hf : ∀ ps d r, f ps d = some r → d ≤ r)
    {groups : List (PStr × List PStr)} (hne : groups ≠ []) :
    ∀ depth r, ridGroups f groups depth = some r → depth + 1 ≤ r := by
  cases groups with
  | nil => cases hne rfl
  | cons g rest =>
    rcases g with ⟨b, ps⟩
    intro depth r h
    cases hf1 : f (ps.map (chopPath b)) (depth + 1) with
    | none =>
      simp only [ridGroups, hf1] at h
      exact Option.noConfusion h
    | some r1 =>
      simp only [ridGroups, hf1] at h
      have h1 := hf _ _ _ hf1
      have h2 := ridGroups_ge hf _ _ _ h
      omega

theorem nodup_of_filter_le_one {qs : List PStr}
    (h : ∀ b, (qs.filter (fun q => basename q = b)).length ≤ 1) :
    (qs.map basename).Nodup := by
  induction qs with
  | nil => simp
  | cons q qs ih =>
    rw [List.map_cons, List.nodup_cons]
    constructor
    · intro hmem
      rcases List.mem_map.mp hmem with ⟨q', hq', hbq⟩
      have hq := h (basename q)
      rw [List.filter_cons, if_pos (by simp)] at hq
      have hmem' : q' ∈ qs.filter (fun x => basename x = basename q) :=
        List.mem_filter.mpr ⟨hq', by simp [hbq]⟩
      have hpos := List.length_pos_of_mem hmem'
      simp only [List.length_cons] at hq
      omega
    · apply ih
      intro b
      have hb := h b
      rw [List.filter_cons] at hb
      by_cases hq : basename q = b
      · rw [if_pos (by simp [hq])] at hb
        simp only [List.length_cons] at hb
        omega
      · rw [if_neg (by simp [hq])] at hb
        exact hb

theorem exists_dup_basename_of_not_nodup {qs : List PStr}
    (h : ¬ (qs.map basename).Nodup) :
    ∃ b, 1 < (qs.filter (fun q => basename q = b)).length := by
  have hn : ¬ ∀ b, (qs.filter (fun q => basename q = b)).length ≤ 1 :=
    fun hall => h (nodup_of_filter_le_one hall)
  push_neg at hn
  exact hn

theorem collectDuplicates_ne_nil {qs : List PStr}
    (h : ¬ (qs.map basename).Nodup) :
    collectDuplicates (qs.map basename) qs ≠ [] := by
  obtain ⟨b, hb⟩ := exists_dup_basename_of_not_nodup h
  have hbmem : b ∈ qs.map basename := mem_map_basename_of_filter_len hb
  intro hcon
  have hmem : (b, occurrencesOf b ((qs.map basename).zip qs)) ∈
      collectDuplicates (qs.map basename) qs := by
    unfold collectDuplicates
    apply List.mem_filter.mpr
    refine ⟨List.mem_map.mpr ⟨b, mem_firstOccs.mpr hbmem, rfl⟩, ?_⟩
    rw [occurrencesOf_eq_filter]
    simpa using hb
  rw [hcon] at hmem
  simp at hmem

theorem rid_pos_of_dup {fuel : Nat} {qs : List PStr} {r : Nat}
    (hdup : ¬ (qs.map basename).Nodup) (h : rid fuel qs 0 = some r) : 0 < r := by
  cases fuel with
  | zero => exact Option.noConfusion h
  | succ fuel =>
    simp only [rid] at h
    rw [if_neg hdup] at h
    have hne := collectDuplicates_ne_nil hdup
    have := ridGroups_ge_succ (fun ps d r' h' => rid_ge_depth fuel ps d r' h') hne 0 r h
    omega

theorem not_nodup_of_all_eq {l : List PStr} {b : PStr} (hlen : 1 < l.length)
    (hall : ∀ x ∈ l, basename x = b) : ¬ (l.map basename).Nodup := by
  intro hnd
  cases l with
  | nil => simp at hlen
  | cons x l =>
    cases l with
    | nil => simp at hlen
    | cons y l =>
      rw [List.map_cons, List.map_cons, List.nodup_cons] at hnd
      apply hnd.1
      rw [hall x (List.mem_cons_self _ _),
        hall y (List.mem_cons_of_mem _ (List.mem_cons_self _ _))]
      exact List.mem_cons_self _ _

/-- C6: if a path's base name is in a duplicate group (resolved depth
`d > 0`), its output is the last `d+1` path segments joined by the separator,
clamped to the full original path when the start index is `≤ 0`, and prefixed
with one leading separator exactly when the start index is `1`. -/
theorem c6_snippet_shape (fuel : Nat) (paths out : List PStr)
    (h : make_path_end_snippets_unique fuel paths = some out)
    (i : Nat) (hi : i < paths.length)
    (hdup : 1 < (paths.filter
      (fun p => basename p = basename (paths.getD i []))).length) :
    ∃ d, rid fuel (paths.filter
        (fun p => basename p = basename (paths.getD i []))) 0 = some d ∧
      0 < d ∧ out.getD i [] = snippetSpec d (paths.getD i []) := by
  obtain ⟨hlen, hpt⟩ := make_char h
  obtain ⟨d, hd, hout⟩ := hpt i hi
  rw [depthFor_char, if_pos hdup] at hd
  have hnd : ¬ ((paths.filter
      (fun p => basename p = basename (paths.getD i []))).map basename).Nodup :=
    not_nodup_of_all_eq hdup (fun x hx => by
      have := List.mem_filter.mp hx
      simpa using this.2)
  have hdpos : 0 < d := rid_pos_of_dup hnd hd
  exact ⟨d, hd, hdpos, by rw [hout, renderSnippet_eq_snippetSpec (by omega)]⟩

/-- Witness for C6 at the second doctest input, first path. -/
theorem c6_snippet_shape_witness :
    ∃ d, rid 100
        ([pstr "/home/damon/photos", pstr "/media/damon/backup1/photos",
          pstr "/media/damon/backup2/photos"].filter
          (fun p => basename p =
            basename ([pstr "/home/damon/photos", pstr "/media/damon/backup1/photos",
              pstr "/media/damon/backup2/photos"].getD 0 []))) 0 = some d ∧
      0 < d ∧
      ([pstr "damon/photos", pstr "backup1/photos", pstr "backup2/photos"] :
          List PStr).getD 0 [] =
        snippetSpec d ([pstr "/home/damon/photos", pstr "/media/damon/backup1/photos",
          pstr "/media/damon/backup2/photos"].getD 0 []) :=
  c6_snippet_shape 100
    [pstr "/home/damon/photos", pstr "/media/damon/backup1/photos",
     pstr "/media/damon/backup2/photos"]
    [pstr "damon/photos", pstr "backup1/photos", pstr "backup2/photos"]
    (by decide) 0 (by decide) (by decide)

/-! ### C7: totality on well-formed, pairwise-distinct inputs -/

/-- Sum of the lengths of the paths: the measure that shrinks at every
recursion level of `_recursive_identify_depth`. -/
def sumLen (ps : List PStr) : Nat := (ps.map List.length).sum

/-- Strings reachable by chopping from well-formed paths: a well-formed path
or the empty string. -/
def chainOK (p : PStr) : Prop := p = [] ∨ wellFormed p

theorem getLastD_concat_eq (l : List PStr) (b : PStr) : (l ++ [b]).getLastD [] = b := by
  rw [List.getLastD_eq_getLast?, List.getLast?_concat]
  rfl

theorem wellFormed_iff {p : PStr} :
    wellFormed p ↔ ∃ segs : List PStr, segs ≠ [] ∧
      (∀ s ∈ segs, s ≠ [] ∧ sepC ∉ s) ∧ p = joinSep ([] :: segs) := by
  constructor
  · rintro ⟨hhead, hlen, htail⟩
    have hsp : splitSep p = [] :: (splitSep p).tail := by
      cases hc : splitSep p with
      | nil => exact absurd hc (splitSep_ne_nil p)
      | cons a t =>
        rw [hc] at hhead
        simp only [List.headD_cons] at hhead
        rw [hhead]
        rfl
    refine ⟨(splitSep p).tail, ?_, ?_, ?_⟩
    · intro hcon
      rw [hcon] at hsp
      have := congrArg List.length hsp
      simp at this
      omega
    · intro s hs
      exact ⟨htail s hs, sep_not_mem_splitSep p s (List.mem_of_mem_tail hs)⟩
    · conv_lhs => rw [← joinSep_splitSep p]
      exact congrArg joinSep hsp
  · rintro ⟨segs, hne, hok, rfl⟩
    have hfree : ∀ x ∈ ([] :: segs : List (List Char)), sepC ∉ x := by
      intro x hx
      rcases List.mem_cons.mp hx with rfl | hx'
      · simp
      · exact (hok x hx').2
    have hsp : splitSep (joinSep ([] :: segs)) = [] :: segs :=
      splitSep_joinSep (by simp) hfree
    refine ⟨?_, ?_, ?_⟩
    · rw [hsp]; rfl
    · rw [hsp]
      have := List.length_pos.mpr hne
      simp only [List.length_cons]
      omega
    · rw [hsp]
      intro s hs
      exact (hok s (by simpa using hs)).1

theorem basename_nil : basename ([] : PStr) = [] := rfl

theorem wellFormed_facts {p : PStr} (h : wellFormed p) :
    basename p ≠ [] ∧ p ≠ [] := by
  rcases wellFormed_iff.mp h with ⟨segs, hne, hok, rfl⟩
  have hfree : ∀ x ∈ ([] :: segs : List (List Char)), sepC ∉ x := by
    intro x hx
    rcases List.mem_cons.mp hx with rfl | hx'
    · simp
    · exact (hok x hx').2
  have hsp : splitSep (joinSep ([] :: segs)) = [] :: segs :=
    splitSep_joinSep (by simp) hfree
  constructor
  · show (splitSep (joinSep ([] :: segs))).getLastD [] ≠ []
    rw [hsp]
    rcases segs.eq_nil_or_concat with rfl | ⟨l', b, rfl⟩
    · cases hne rfl
    · simp only [List.concat_eq_append]
      rw [show ([] : PStr) :: (l' ++ [b]) = (([] : PStr) :: l') ++ [b] by simp]
      rw [getLastD_concat_eq]
      exact (hok b (by simp)).1
  · intro hcon
    have := congrArg splitSep hcon
    rw [hsp, splitSep_nil] at this
    injection this with h1 h2
    exact hne h2

theorem wellFormed_of_chainOK {p : PStr} (h : chainOK p) (hb : basename p ≠ []) :
    wellFormed p := by
  rcases h with rfl | h
  · exact absurd basename_nil hb
  · exact h

theorem chop_eq_joinSep_take (p : PStr) :
    chopPath (basename p) p =
      joinSep ((splitSep p).take ((splitSep p).length - 1)) := by
  have h := chainIter_eq p 1
  rw [show chainIter p 1 = chopPath (basename p) p from rfl] at h
  exact h

theorem wellFormed_chop_reconstruct {p : PStr} (h : wellFormed p) :
    p = chopPath (basename p) p ++ sepC :: basename p := by
  have hn2 : 2 ≤ (splitSep p).length := h.2.1
  have hsplit : splitSep p =
      (splitSep p).take ((splitSep p).length - 1) ++ [(splitSep p).getLastD []] := by
    rcases (splitSep p).eq_nil_or_concat with hnil | ⟨l', b, hc⟩
    · exact absurd hnil (splitSep_ne_nil p)
    · rw [hc]
      simp only [List.concat_eq_append]
      rw [getLastD_concat_eq, List.length_append, List.length_singleton,
        show l'.length + 1 - 1 = l'.length by omega, List.take_left]
  have hne : (splitSep p).take ((splitSep p).length - 1) ≠ [] := by
    intro hcon
    have := congrArg List.length hcon
    rw [List.length_take] at this
    simp at this
    omega
  conv_lhs => rw [← joinSep_splitSep p, hsplit]
  rw [joinSep_append_singleton hne, chop_eq_joinSep_take]
  rfl

theorem chainOK_chop {p : PStr} (h : wellFormed p) :
    chainOK (chopPath (basename p) p) := by
  rcases wellFormed_iff.mp h with ⟨segs, hne, hok, hp⟩
  have hfree : ∀ x ∈ ([] :: segs : List (List Char)), sepC ∉ x := by
    intro x hx
    rcases List.mem_cons.mp hx with rfl | hx'
    · simp
    · exact (hok x hx').2
  have hsp : splitSep p = [] :: segs := by
    rw [hp]
    exact splitSep_joinSep (by simp) hfree
  rw [chop_eq_joinSep_take, hsp]
  simp only [List.length_cons, Nat.add_sub_cancel]
  cases segs with
  | nil => exact absurd rfl hne
  | cons s t =>
    simp only [List.length_cons]
    rw [List.take_succ_cons]
    cases t with
    | nil => exact Or.inl rfl
    | cons s2 t2 =>
      refine Or.inr (wellFormed_iff.mpr
        ⟨(s :: s2 :: t2).take (s2 :: t2).length, ?_, ?_, rfl⟩)
      · intro hcon
        have := congrArg List.length hcon
        simp only [List.length_take, List.length_cons, List.length_nil] at this
        omega
      · intro x hx
        exact hok x (List.mem_of_mem_take hx)

theorem chopPath_length_lt {p : PStr} (h : p ≠ []) (b : PStr) :
    (chopPath b p).length < p.length := by
  show (p.take (p.length - (b.length + 1))).length < p.length
  rw [List.length_take]
  have : 0 < p.length := List.length_pos.mpr h
  omega

theorem sumLen_chop {ms : List PStr} (b : PStr) (hms : ∀ m ∈ ms, m ≠ []) :
    sumLen (ms.map (chopPath b)) + ms.length ≤ sumLen ms := by
  induction ms with
  | nil => simp [sumLen]
  | cons m ms ih =>
    have h1 : (chopPath b m).length < m.length :=
      chopPath_length_lt (hms m (List.mem_cons_self _ _)) b
    have h2 := ih (fun q hq => hms q (List.mem_cons_of_mem _ hq))
    simp only [sumLen, List.map_cons, List.sum_cons, List.length_cons] at h2 ⊢
    omega

theorem mem_collectDuplicates {ps : List PStr} {g : PStr × List PStr}
    (h : g ∈ collectDuplicates (ps.map basename) ps) :
    g.2 = ps.filter (fun p => basename p = g.1) ∧ 1 < g.2.length := by
  unfold collectDuplicates at h
  obtain ⟨hmap, hlen⟩ := List.mem_filter.mp h
  rcases List.mem_map.mp hmap with ⟨b, hb, rfl⟩
  exact ⟨occurrencesOf_eq_filter b ps, by simpa using hlen⟩

theorem ridGroups_total {f : List PStr → Nat → Option Nat} :
    ∀ groups : List (PStr × List PStr),
    (∀ g ∈ groups, ∀ d, (f (g.2.map (chopPath g.1)) d).isSome = true) →
    ∀ depth, (ridGroups f groups depth).isSome = true := by
  intro groups
  induction groups with
  | nil => intro _ depth; simp [ridGroups]
  | cons g rest ih =>
    intro hall depth
    rcases g with ⟨b, ms⟩
    have h1 := hall (b, ms) (List.mem_cons_self _ _) (depth + 1)
    cases hf1 : f (ms.map (chopPath b)) (depth + 1) with
    | none => rw [hf1] at h1; simp at h1
    | some r =>
      simp only [ridGroups, hf1]
      exact ih (fun g hg d => hall g (List.mem_cons_of_mem _ hg) d) _

theorem rid_total : ∀ fuel ps depth,
    (∀ p ∈ ps, chainOK p) → ps.Pairwise (· ≠ ·) → sumLen ps < fuel →
    (rid fuel ps depth).isSome = true := by
  intro fuel
  induction fuel with
  | zero => intro ps depth _ _ h; omega
  | succ fuel ih =>
    intro ps depth hok hpair hlen
    simp only [rid]
    by_cases hnd : (ps.map basename).Nodup
    · rw [if_pos hnd]; rfl
    · rw [if_neg hnd]
      apply ridGroups_total
      intro g hg d
      obtain ⟨hg2, hglen⟩ := mem_collectDuplicates hg
      have hmem_ps : ∀ m ∈ g.2, m ∈ ps := by
        rw [hg2]; intro m hm; exact (List.mem_filter.mp hm).1
      have hbn : ∀ m ∈ g.2, basename m = g.1 := by
        rw [hg2]; intro m hm; simpa using (List.mem_filter.mp hm).2
      have hpair_ms : g.2.Pairwise (· ≠ ·) := by
        rw [hg2]; exact hpair.filter _
      have hkey : g.1 ≠ [] := by
        intro hb
        obtain ⟨m1, m2, t, hms⟩ : ∃ m1 m2 t, g.2 = m1 :: m2 :: t := by
          cases h1 : g.2 with
          | nil => rw [h1] at hglen; simp at hglen
          | cons m1 t1 =>
            cases t1 with
            | nil => rw [h1] at hglen; simp at hglen
            | cons m2 t2 => exact ⟨m1, m2, t2, rfl⟩
        have hnil : ∀ m ∈ g.2, m = [] := by
          intro m hm
          rcases hok m (hmem_ps m hm) with hm0 | hmwf
          · exact hm0
          · exact absurd (hbn m hm ▸ hb ▸ (wellFormed_facts hmwf).1) (by simp [hbn m hm, hb])
        have e1 : m1 = [] := hnil m1 (by rw [hms]; exact List.mem_cons_self _ _)
        have e2 : m2 = [] := hnil m2 (by
          rw [hms]; exact List.mem_cons_of_mem _ (List.mem_cons_self _ _))
        have : m1 ≠ m2 := by
          have := hpair_ms
          rw [hms, List.pairwise_cons] at this
          exact this.1 m2 (List.mem_cons_self _ _)
        rw [e1, e2] at this
        exact this rfl
      have hwf : ∀ m ∈ g.2, wellFormed m := fun m hm =>
        wellFormed_of_chainOK (hok m (hmem_ps m hm)) (by rw [hbn m hm]; exact hkey)
      have hchop_eq : ∀ m ∈ g.2, chopPath g.1 m = chopPath (basename m) m := by
        intro m hm; rw [hbn m hm]
      apply ih
      · intro q hq
        rcases List.mem_map.mp hq with ⟨m, hm, rfl⟩
        rw [hchop_eq m hm]
        exact chainOK_chop (hwf m hm)
      · rw [List.pairwise_map]
        have inj : ∀ m1 ∈ g.2, ∀ m2 ∈ g.2,
            chopPath g.1 m1 = chopPath g.1 m2 → m1 = m2 := by
          intro m1 h1 m2 h2 heq
          have e1 := wellFormed_chop_reconstruct (hwf m1 h1)
          have e2 := wellFormed_chop_reconstruct (hwf m2 h2)
          rw [hbn m1 h1] at e1
          rw [hbn m2 h2] at e2
          rw [e1, e2, heq]
        exact hpair_ms.imp_of_mem (fun ha hb hne heq => hne (inj _ ha _ hb heq))
      · have hne_ms : ∀ m ∈ g.2, m ≠ [] := fun m hm => (wellFormed_facts (hwf m hm)).2
        have h1 := sumLen_chop g.1 hne_ms
        have hsub : ((ps.filter (fun p => basename p = g.1)).map List.length).Sublist
            (ps.map List.length) := (List.filter_sublist ps).map _
        have h2 := hsub.sum_le_sum (fun a _ => Nat.zero_le a)
        rw [← hg2] at h2
        show sumLen (g.2.map (chopPath g.1)) < fuel
        have h3 : sumLen g.2 ≤ sumLen ps := h2
        omega

theorem mapOption_isSome {α β : Type _} {f : α → Option β} {l : List α}
    (h : ∀ a ∈ l, (f a).isSome = true) : (mapOption f l).isSome = true := by
  induction l with
  | nil => rfl
  | cons a l ih =>
    cases hfa : f a with
    | none =>
      have := h a (List.mem_cons_self _ _)
      rw [hfa] at this
      simp at this
    | some b =>
      simp only [mapOption, hfa]
      cases hml : mapOption f l with
      | none =>
        have := ih (fun a ha => h a (List.mem_cons_of_mem _ ha))
        rw [hml] at this
        simp at this
      | some u => simp

/-- C7: on any finite list of well-formed, non-empty, pairwise-distinct
path strings, the function terminates and returns a result (with fuel
bounded by the total input length).  No exceptions: the `Option` never
fails on such inputs. -/
theorem c7_total (paths : List PStr)
    (hwf : ∀ p ∈ paths, wellFormed p)
    (hne : ∀ p ∈ paths, p ≠ [])
    (hdist : paths.Pairwise (· ≠ ·)) :
    ∃ out, make_path_end_snippets_unique (sumLen paths + 1) paths = some out := by
  by_cases hnd : (paths.map basename).Nodup
  · exact ⟨paths.map basename, by
      simp only [make_path_end_snippets_unique]; rw [if_pos hnd]⟩
  · have key : ∀ p ∈ paths,
        ((depthFor (sumLen paths + 1)
            (collectDuplicates (paths.map basename) paths) (basename p)).map
          (fun d => renderSnippet d p)).isSome = true := by
      intro p hp
      rw [depthFor_char]
      by_cases hdup : 1 < (paths.filter (fun q => basename q = basename p)).length
      · rw [if_pos hdup]
        have hsome : (rid (sumLen paths + 1)
            (paths.filter (fun q => basename q = basename p)) 0).isSome = true := by
          apply rid_total
          · intro q hq
            exact Or.inr (hwf q (List.mem_filter.mp hq).1)
          · exact hdist.filter _
          · have hsub : ((paths.filter
                (fun q => basename q = basename p)).map List.length).Sublist
                (paths.map List.length) := (List.filter_sublist paths).map _
            have h2 := hsub.sum_le_sum (fun a _ => Nat.zero_le a)
            show sumLen _ < sumLen paths + 1
            have : sumLen (paths.filter (fun q => basename q = basename p)) ≤
                sumLen paths := h2
            omega
        cases hr : rid (sumLen paths + 1)
            (paths.filter (fun q => basename q = basename p)) 0 with
        | none => rw [hr] at hsome; simp at hsome
        | some d => rfl
      · rw [if_neg hdup]; rfl
    obtain ⟨out, hout⟩ := Option.isSome_iff_exists.mp (mapOption_isSome key)
    refine ⟨out, ?_⟩
    simp only [make_path_end_snippets_unique]
    rw [if_neg hnd]
    exact hout

/-- Witness for C7 at the second doctest input. -/
theorem c7_total_witness :
    (∀ p ∈ [pstr "/home/damon/photos", pstr "/media/damon/backup1/photos",
        pstr "/media/damon/backup2/photos"], wellFormed p) ∧
    (∀ p ∈ [pstr "/home/damon/photos", pstr "/media/damon/backup1/photos",
        pstr "/media/damon/backup2/photos"], p ≠ []) ∧
    ([pstr "/home/damon/photos", pstr "/media/damon/backup1/photos",
      pstr "/media/damon/backup2/photos"] : List PStr).Pairwise (· ≠ ·) ∧
    ∃ out, make_path_end_snippets_unique
        (sumLen [pstr "/home/damon/photos", pstr "/media/damon/backup1/photos",
          pstr "/media/damon/backup2/photos"] + 1)
        [pstr "/home/damon/photos", pstr "/media/damon/backup1/photos",
         pstr "/media/damon/backup2/photos"] = some out :=
  ⟨by decide, by decide, by decide,
    c7_total _ (by decide) (by decide) (by decide)⟩

/-! ### C1: machinery — chains shift under chopping, and the resolved depth
dominates the level at which two colliding paths first differ -/

theorem bnChain_zero (p : PStr) : bnChain p 0 = basename p := rfl

theorem chainIter_chop (p : PStr) :
    ∀ j, chainIter (chopPath (basename p) p) j = chainIter p (j + 1) := by
  intro j
  induction j with
  | zero => rfl
  | succ j ih =>
    show chopPath (basename (chainIter (chopPath (basename p) p) j))
        (chainIter (chopPath (basename p) p) j) = chainIter p (j + 2)
    rw [ih]
    rfl

theorem bnChain_chop (p : PStr) (j : Nat) :
    bnChain (chopPath (basename p) p) j = bnChain p (j + 1) := by
  rw [bnChain, bnChain, chainIter_chop]

theorem two_le_length_of_mem_ne {l : List PStr} {p q : PStr}
    (hp : p ∈ l) (hq : q ∈ l) (hne : p ≠ q) : 1 < l.length := by
  cases l with
  | nil => simp at hp
  | cons a t =>
    cases t with
    | nil =>
      simp only [List.mem_singleton] at hp hq
      exact absurd (hp.trans hq.symm) hne
    | cons b t' => simp

/-- Invariant preservation for one duplicate group: if all paths are
chain-reachable from well-formed ones and pairwise distinct, then a
duplicate base-name group consists of well-formed paths, its key is
non-empty, and its chopped members are again chain-reachable and pairwise
distinct. -/
theorem group_inv {ps : List PStr} (hok : ∀ p ∈ ps, chainOK p)
    (hpair : ps.Pairwise (· ≠ ·)) {b : PStr}
    (hlen : 1 < (ps.filter (fun p => basename p = b)).length) :
    b ≠ [] ∧
    (∀ m ∈ ps.filter (fun p => basename p = b), wellFormed m) ∧
    (∀ q ∈ (ps.filter (fun p => basename p = b)).map (chopPath b), chainOK q) ∧
    ((ps.filter (fun p => basename p = b)).map (chopPath b)).Pairwise (· ≠ ·) := by
  set ms := ps.filter (fun p => basename p = b) with hms
  have hmem_ps : ∀ m ∈ ms, m ∈ ps := fun m hm => (List.mem_filter.mp hm).1
  have hbn : ∀ m ∈ ms, basename m = b := fun m hm => by
    simpa using (List.mem_filter.mp hm).2
  have hpair_ms : ms.Pairwise (· ≠ ·) := hpair.filter _
  have hkey : b ≠ [] := by
    intro hb
    obtain ⟨m1, m2, t, hmseq⟩ : ∃ m1 m2 t, ms = m1 :: m2 :: t := by
      cases h1 : ms with
      | nil => rw [h1] at hlen; simp at hlen
      | cons m1 t1 =>
        cases t1 with
        | nil => rw [h1] at hlen; simp at hlen
        | cons m2 t2 => exact ⟨m1, m2, t2, rfl⟩
    have hnil : ∀ m ∈ ms, m = [] := by
      intro m hm
      rcases hok m (hmem_ps m hm) with hm0 | hmwf
      · exact hm0
      · exact absurd (hbn m hm) (by rw [hb]; exact (wellFormed_facts hmwf).1)
    have e1 : m1 = [] := hnil m1 (by rw [hmseq]; exact List.mem_cons_self _ _)
    have e2 : m2 = [] := hnil m2 (by
      rw [hmseq]; exact List.mem_cons_of_mem _ (List.mem_cons_self _ _))
    have h12 : m1 ≠ m2 := by
      have := hpair_ms
      rw [hmseq, List.pairwise_cons] at this
      exact this.1 m2 (List.mem_cons_self _ _)
    exact h12 (e1.trans e2.symm)
  have hwf : ∀ m ∈ ms, wellFormed m := fun m hm =>
    wellFormed_of_chainOK (hok m (hmem_ps m hm)) (by rw [hbn m hm]; exact hkey)
  refine ⟨hkey, hwf, ?_, ?_⟩
  · intro q hq
    rcases List.mem_map.mp hq with ⟨m, hm, rfl⟩
    rw [← hbn m hm]
    exact chainOK_chop (hwf m hm)
  · rw [List.pairwise_map]
    have inj : ∀ m1 ∈ ms, ∀ m2 ∈ ms,
        chopPath b m1 = chopPath b m2 → m1 = m2 := by
      intro m1 h1 m2 h2 heq
      have e1 := wellFormed_chop_reconstruct (hwf m1 h1)
      have e2 := wellFormed_chop_reconstruct (hwf m2 h2)
      rw [hbn m1 h1] at e1
      rw [hbn m2 h2] at e2
      rw [e1, e2, heq]
    exact hpair_ms.imp_of_mem (fun ha hb' hne heq => hne (inj _ ha _ hb' heq))

/-- Every entry of a duplicate-group key `b` with its members is present in
`collectDuplicates` when `b` actually occurs duplicated. -/
theorem group_mem_collectDuplicates {ps : List PStr} {b : PStr}
    (hlen : 1 < (ps.filter (fun p => basename p = b)).length) :
    (b, ps.filter (fun p => basename p = b)) ∈
      collectDuplicates (ps.map basename) ps := by
  have hbmem : b ∈ ps.map basename := mem_map_basename_of_filter_len hlen
  unfold collectDuplicates
  apply List.mem_filter.mpr
  constructor
  · refine List.mem_map.mpr ⟨b, mem_firstOccs.mpr hbmem, ?_⟩
    rw [occurrencesOf_eq_filter]
  · simpa using hlen

/-- If a group is in the list, `ridGroups` ran its recursive call at some
depth at least the incoming one, and the final result dominates that call's
result. -/
theorem ridGroups_mem {f : List PStr → Nat → Option Nat}
    (hf : ∀ ps d r, f ps d = some r → d ≤ r) {b : PStr} {ms : List PStr} :
    ∀ groups depth res, (b, ms) ∈ groups →
    ridGroups f groups depth = some res →
    ∃ d1 r, depth ≤ d1 ∧ f (ms.map (chopPath b)) (d1 + 1) = some r ∧ r ≤ res := by
  intro groups
  induction groups with
  | nil => intro depth res hmem; simp at hmem
  | cons g rest ih =>
    intro depth res hmem h
    rcases g with ⟨b', ms'⟩
    cases hf1 : f (ms'.map (chopPath b')) (depth + 1) with
    | none =>
      simp only [ridGroups, hf1] at h
      exact Option.noConfusion h
    | some r1 =>
      simp only [ridGroups, hf1] at h
      rcases List.mem_cons.mp hmem with heq | hmem'
      · obtain ⟨hb, hms⟩ := Prod.mk.injEq .. ▸ heq
        injection heq with hb hms
        subst hb; subst hms
        refine ⟨depth, r1, le_refl _, hf1, ?_⟩
        have := ridGroups_ge hf rest _ _ h
        omega
      · obtain ⟨d1, r, hd1, hfr, hr⟩ := ih _ _ hmem' h
        exact ⟨d1, r, by omega, hfr, hr⟩

/-- Key lower bound: if `_recursive_identify_depth` returns `res` on a list
satisfying the invariant, and two distinct member paths have equal basename
chains through level `k`, then `res ≥ depth + k + 1`. -/
theorem rid_ge_agree : ∀ fuel ps depth res,
    (∀ p ∈ ps, chainOK p) → ps.Pairwise (· ≠ ·) →
    rid fuel ps depth = some res →
    ∀ p q, p ∈ ps → q ∈ ps → p ≠ q →
    ∀ k, (∀ j, j ≤ k → bnChain p j = bnChain q j) →
    depth + k + 1 ≤ res := by
  intro fuel
  induction fuel with
  | zero => intro ps depth res _ _ h; exact absurd h (by simp [rid])
  | succ fuel ih =>
    intro ps depth res hok hpair h p q hp hq hne k hagree
    simp only [rid] at h
    have hbpq : basename p = basename q := by
      have := hagree 0 (Nat.zero_le k)
      simpa [bnChain_zero] using this
    by_cases hnd : (ps.map basename).Nodup
    · exact absurd (List.inj_on_of_nodup_map hnd hp hq hbpq) hne
    · rw [if_neg hnd] at h
      set b := basename p with hbdef
      have hpmem : p ∈ ps.filter (fun x => basename x = b) :=
        List.mem_filter.mpr ⟨hp, by simp⟩
      have hqmem : q ∈ ps.filter (fun x => basename x = b) :=
        List.mem_filter.mpr ⟨hq, by simp [← hbpq]⟩
      have hglen : 1 < (ps.filter (fun x => basename x = b)).length :=
        two_le_length_of_mem_ne hpmem hqmem hne
      obtain ⟨hkey, hwfm, hokc, hpairc⟩ := group_inv hok hpair hglen
      have hgmem := group_mem_collectDuplicates hglen
      obtain ⟨d1, r, hd1, hfr, hr⟩ :=
        ridGroups_mem (fun ps' d' r' h' => rid_ge_depth fuel ps' d' r' h')
          _ _ _ hgmem h
      have hchp : chopPath b p ∈
          (ps.filter (fun x => basename x = b)).map (chopPath b) :=
        List.mem_map.mpr ⟨p, hpmem, rfl⟩
      have hchq : chopPath b q ∈
          (ps.filter (fun x => basename x = b)).map (chopPath b) :=
        List.mem_map.mpr ⟨q, hqmem, rfl⟩
      cases k with
      | zero =>
        have := rid_ge_depth fuel _ _ _ hfr
        omega
      | succ k' =>
        have hcne : chopPath b p ≠ chopPath b q := by
          intro heq
          apply hne
          have e1 := wellFormed_chop_reconstruct (hwfm p hpmem)
          have e2 := wellFormed_chop_reconstruct (hwfm q hqmem)
          rw [show basename p = b from rfl] at e1
          rw [show basename q = b by rw [← hbpq]] at e2
          rw [e1, e2, heq]
        have hagree' : ∀ j, j ≤ k' →
            bnChain (chopPath b p) j = bnChain (chopPath b q) j := by
          intro j hj
          have e1 : chopPath b p = chopPath (basename p) p := rfl
          have e2 : chopPath b q = chopPath (basename q) q := by rw [← hbpq]
          rw [e1, e2, bnChain_chop, bnChain_chop]
          exact hagree (j + 1) (by omega)
        have := ih _ _ _ hokc hpairc hfr _ _ hchp hchq hcne k' hagree'
        omega

/-! ### C1: machinery — the three shapes of a rendered snippet -/

theorem joinSep_nil_cons {segs : List PStr} (h : segs ≠ []) :
    joinSep ([] :: segs) = sepC :: joinSep segs := by
  cases segs with
  | nil => cases h rfl
  | cons s t =>
    rw [joinSep_cons_cons]
    rfl

theorem wellFormed_head {p : PStr} (hp : wellFormed p) : ∃ t, p = sepC :: t := by
  rcases wellFormed_iff.mp hp with ⟨segs, hne, hok, rfl⟩
  exact ⟨joinSep segs, joinSep_nil_cons hne⟩

theorem renderSnippet_full_of_le {d : Nat} (hd : d ≠ 0) {p : PStr}
    (hn : (splitSep p).length ≤ d + 1) : renderSnippet d p = p := by
  simp only [renderSnippet]
  rw [if_neg hd]
  have hidx : ((splitSep p).length : Int) - d - 1 ≤ 0 := by omega
  rw [if_neg (show ¬(((splitSep p).length : Int) - d - 1 = 1) by omega),
    max_eq_right hidx]
  show joinSep ((splitSep p).drop (0 : Int).toNat) = p
  rw [Int.toNat_zero, List.drop_zero, joinSep_splitSep]

theorem renderSnippet_full_of_eq {d : Nat} (hd : d ≠ 0) {p : PStr}
    (hp : wellFormed p) (hn : (splitSep p).length = d + 2) :
    renderSnippet d p = p := by
  simp only [renderSnippet]
  rw [if_neg hd]
  have hidx : ((splitSep p).length : Int) - d - 1 = 1 := by omega
  rw [if_pos hidx, hidx]
  rw [show ((max (1 : Int) 0).toNat) = 1 from rfl]
  rcases wellFormed_iff.mp hp with ⟨segs, hsne, hok, hpeq⟩
  have hfree : ∀ x ∈ ([] :: segs : List (List Char)), sepC ∉ x := by
    intro x hx
    rcases List.mem_cons.mp hx with rfl | hx'
    · simp
    · exact (hok x hx').2
  have hsp : splitSep p = [] :: segs := by
    rw [hpeq]
    exact splitSep_joinSep (by simp) hfree
  rw [hsp, List.drop_one, List.tail_cons, hpeq, joinSep_nil_cons hsne]

theorem renderSnippet_drop_of_ge {d : Nat} (hd : d ≠ 0) {p : PStr}
    (hn : d + 3 ≤ (splitSep p).length) :
    renderSnippet d p =
      joinSep ((splitSep p).drop ((splitSep p).length - d - 1)) := by
  simp only [renderSnippet]
  rw [if_neg hd]
  rw [if_neg (show ¬(((splitSep p).length : Int) - d - 1 = 1) by omega)]
  rw [max_eq_left (show (0 : Int) ≤ ((splitSep p).length : Int) - d - 1 by omega)]
  congr 2
  omega

theorem bnChain_lt {p : PStr} {k : Nat} (hk : k < (splitSep p).length) :
    bnChain p k = (splitSep p)[(splitSep p).length - 1 - k] := by
  rw [bnChain_eq, getLastD_take (by omega) (by omega)]
  congr 1
  omega

theorem joinSep_inj {l1 l2 : List PStr} (h1 : l1 ≠ []) (h2 : l2 ≠ [])
    (hf1 : ∀ x ∈ l1, sepC ∉ x) (hf2 : ∀ x ∈ l2, sepC ∉ x)
    (h : joinSep l1 = joinSep l2) : l1 = l2 := by
  have := congrArg splitSep h
  rwa [splitSep_joinSep h1 hf1, splitSep_joinSep h2 hf2] at this

theorem append_ne_sep_cons {x : PStr} (hx : x ≠ []) (hfree : sepC ∉ x)
    (y t : PStr) : x ++ y ≠ sepC :: t := by
  cases x with
  | nil => cases hx rfl
  | cons c x' =>
    intro hcon
    injection hcon with hc ht
    exact hfree (hc ▸ List.mem_cons_self c x')

theorem joinSep_cons_exists (x : PStr) (rest : List PStr) :
    ∃ y, joinSep (x :: rest) = x ++ y := by
  cases rest with
  | nil => exact ⟨[], by rw [joinSep_singleton, List.append_nil]⟩
  | cons b t => exact ⟨sepC :: joinSep (b :: t), joinSep_cons_cons x b t⟩

theorem drop_head_facts {r : PStr} (hr : wellFormed r) (i : Nat)
    (hi1 : 1 ≤ i) (hi2 : i < (splitSep r).length) :
    ∃ x rest, (splitSep r).drop i = x :: rest ∧ x ≠ [] ∧ sepC ∉ x := by
  cases hdr : (splitSep r).drop i with
  | nil =>
    have := congrArg List.length hdr
    rw [List.length_drop] at this
    simp at this
    omega
  | cons x rest =>
    refine ⟨x, rest, rfl, ?_, ?_⟩
    · have hx : x ∈ (splitSep r).drop i := by
        rw [hdr]; exact List.mem_cons_self _ _
      have hx1 : x ∈ ((splitSep r).drop 1).drop (i - 1) := by
        rw [List.drop_drop, show 1 + (i - 1) = i by omega]
        exact hx
      have hxt : x ∈ (splitSep r).tail := by
        rw [← List.drop_one]
        exact List.drop_subset _ _ hx1
      exact hr.2.2 x hxt
    · have hx : x ∈ (splitSep r).drop i := by
        rw [hdr]; exact List.mem_cons_self _ _
      exact sep_not_mem_splitSep r x (List.mem_of_mem_drop hx)

/-- For two distinct well-formed paths rendered at the same depth `d ≥ 1`,
if their basename chains differ at some level `≤ d`, the snippets differ. -/
theorem renderSnippet_ne {p q : PStr} (hp : wellFormed p) (hq : wellFormed q)
    (hne : p ≠ q) {d : Nat} (hd : d ≠ 0)
    (hdiff : ∃ k, k ≤ d ∧ bnChain p k ≠ bnChain q k) :
    renderSnippet d p ≠ renderSnippet d q := by
  obtain ⟨k, hk, hkne⟩ := hdiff
  have hfull : ∀ r : PStr, wellFormed r → (splitSep r).length ≤ d + 2 →
      renderSnippet d r = r := by
    intro r hr hlen
    rcases Nat.lt_or_ge (splitSep r).length (d + 2) with hlt | hge
    · exact renderSnippet_full_of_le hd (by omega)
    · exact renderSnippet_full_of_eq hd hr (by omega)
  have hsideways : ∀ r s : PStr, wellFormed r → wellFormed s →
      d + 3 ≤ (splitSep s).length →
      r ≠ joinSep ((splitSep s).drop ((splitSep s).length - d - 1)) := by
    intro r s hr hs hslen
    obtain ⟨t, hrt⟩ := wellFormed_head hr
    obtain ⟨x, rest, hxr, hxne, hxfree⟩ :=
      drop_head_facts hs ((splitSep s).length - d - 1) (by omega) (by omega)
    rw [hxr]
    obtain ⟨y, hy⟩ := joinSep_cons_exists x rest
    rw [hy, hrt]
    intro hcon
    exact append_ne_sep_cons hxne hxfree y t hcon.symm
  by_cases cp : (splitSep p).length ≤ d + 2 <;>
    by_cases cq : (splitSep q).length ≤ d + 2
  · rw [hfull p hp cp, hfull q hq cq]
    exact hne
  · rw [hfull p hp cp, renderSnippet_drop_of_ge hd (by omega)]
    exact hsideways p q hp hq (by omega)
  · rw [hfull q hq cq, renderSnippet_drop_of_ge hd (by omega)]
    intro hcon
    exact hsideways q p hq hp (by omega) hcon.symm
  · rw [renderSnippet_drop_of_ge hd (by omega),
      renderSnippet_drop_of_ge hd (by omega)]
    intro hcon
    apply hkne
    have hfp : ∀ x ∈ (splitSep p).drop ((splitSep p).length - d - 1), sepC ∉ x :=
      fun x hx => sep_not_mem_splitSep p x (List.mem_of_mem_drop hx)
    have hfq : ∀ x ∈ (splitSep q).drop ((splitSep q).length - d - 1), sepC ∉ x :=
      fun x hx => sep_not_mem_splitSep q x (List.mem_of_mem_drop hx)
    have hnep : (splitSep p).drop ((splitSep p).length - d - 1) ≠ [] := by
      intro hc
      have := congrArg List.length hc
      rw [List.length_drop] at this
      simp at this
      omega
    have hneq : (splitSep q).drop ((splitSep q).length - d - 1) ≠ [] := by
      intro hc
      have := congrArg List.length hc
      rw [List.length_drop] at this
      simp at this
      omega
    have hL := joinSep_inj hnep hneq hfp hfq hcon
    have hlp : d - k < ((splitSep p).drop ((splitSep p).length - d - 1)).length := by
      rw [List.length_drop]
      omega
    have hlq : d - k < ((splitSep q).drop ((splitSep q).length - d - 1)).length := by
      rw [List.length_drop]
      omega
    have e1 : ((splitSep p).drop ((splitSep p).length - d - 1))[d - k] =
        (splitSep p)[(splitSep p).length - 1 - k] := by
      rw [List.getElem_drop]
      congr 1
      omega
    have e2 : ((splitSep q).drop ((splitSep q).length - d - 1))[d - k] =
        (splitSep q)[(splitSep q).length - 1 - k] := by
      rw [List.getElem_drop]
      congr 1
      omega
    rw [bnChain_lt (by omega), bnChain_lt (by omega), ← e1, ← e2]
    exact List.getElem_of_eq hL _

/-! ### C1: machinery — basenames of rendered snippets -/

theorem getLastD_default_irrel {l : List PStr} (h : l ≠ []) (d1 d2 : PStr) :
    l.getLastD d1 = l.getLastD d2 := by
  rcases l.eq_nil_or_concat with rfl | ⟨l', b, rfl⟩
  · cases h rfl
  · simp

theorem getLastD_mem {l : List PStr} (h : l ≠ []) : l.getLastD [] ∈ l := by
  rcases l.eq_nil_or_concat with rfl | ⟨l', b, rfl⟩
  · cases h rfl
  · simp

theorem sep_not_mem_basename (p : PStr) : sepC ∉ basename p :=
  sep_not_mem_splitSep p _ (getLastD_mem (splitSep_ne_nil p))

theorem basename_of_sep_not_mem {s : PStr} (hfree : sepC ∉ s) : basename s = s := by
  have hsp : splitSep s = [s] := by
    show s.splitOn sepC = [s]
    rw [List.splitOn]
    exact List.splitOnP_eq_single _ _
      (fun y hy hc => hfree ((by simpa using hc : y = sepC) ▸ hy))
  show (splitSep s).getLastD [] = s
  rw [hsp]
  rfl

theorem basename_basename (p : PStr) : basename (basename p) = basename p :=
  basename_of_sep_not_mem (sep_not_mem_basename p)

theorem basename_sep_cons (s : PStr) : basename (sepC :: s) = basename s := by
  show (splitSep (sepC :: s)).getLastD [] = (splitSep s).getLastD []
  rw [splitSep_cons, if_pos rfl, List.getLastD_cons]

theorem renderSnippet_sep_cons_of_eq {d : Nat} (hd : d ≠ 0) {p : PStr}
    (hn : (splitSep p).length = d + 2) :
    renderSnippet d p = sepC :: joinSep ((splitSep p).drop 1) := by
  simp only [renderSnippet]
  rw [if_neg hd]
  have hidx : ((splitSep p).length : Int) - d - 1 = 1 := by omega
  rw [if_pos hidx, hidx]
  rw [show ((max (1 : Int) 0).toNat) = 1 from rfl]

/-- The basename of a rendered snippet is the path's basename, at any depth
(this holds for all strings, well-formed or not). -/
theorem basename_renderSnippet (d : Nat) (p : PStr) :
    basename (renderSnippet d p) = basename p := by
  by_cases hd : d = 0
  · subst hd
    rw [renderSnippet_zero, basename_basename]
  · rcases Nat.lt_or_ge (d + 1) (splitSep p).length with hgt | hle
    · rcases Nat.lt_or_ge (d + 2) (splitSep p).length with hgt2 | hle2
      · rw [renderSnippet_drop_of_ge hd (by omega)]
        have hfree : ∀ x ∈ (splitSep p).drop ((splitSep p).length - d - 1), sepC ∉ x :=
          fun x hx => sep_not_mem_splitSep p x (List.mem_of_mem_drop hx)
        rw [basename_joinSep hfree]
        show _ = (splitSep p).getLastD []
        exact getLastD_drop (by omega)
      · have hn : (splitSep p).length = d + 2 := by omega
        rw [renderSnippet_sep_cons_of_eq hd hn, basename_sep_cons]
        have hfree : ∀ x ∈ (splitSep p).drop 1, sepC ∉ x :=
          fun x hx => sep_not_mem_splitSep p x (List.mem_of_mem_drop hx)
        rw [basename_joinSep hfree]
        show _ = (splitSep p).getLastD []
        exact getLastD_drop (by omega)
    · rw [renderSnippet_full_of_le hd (by omega)]

/-- A snippet rendered at positive depth for a well-formed path contains the
separator. -/
theorem sep_mem_renderSnippet {p : PStr} (hp : wellFormed p) {d : Nat}
    (hd : d ≠ 0) : sepC ∈ renderSnippet d p := by
  rcases Nat.lt_or_ge (d + 2) (splitSep p).length with hgt2 | hle2
  · rw [renderSnippet_drop_of_ge hd (by omega)]
    obtain ⟨x, rest, hxr, -, -⟩ :=
      drop_head_facts hp ((splitSep p).length - d - 1) (by omega) (by omega)
    have hrest : rest ≠ [] := by
      intro hc
      have := congrArg List.length hxr
      rw [List.length_drop, hc] at this
      simp at this
      omega
    cases rest with
    | nil => cases hrest rfl
    | cons y t =>
      rw [hxr, joinSep_cons_cons]
      exact List.mem_append_right x (List.mem_cons_self _ _)
  · have hfull : renderSnippet d p = p := by
      rcases Nat.lt_or_ge (splitSep p).length (d + 2) with hlt | hge
      · exact renderSnippet_full_of_le hd (by omega)
      · exact renderSnippet_full_of_eq hd hp (by omega)
    rw [hfull]
    obtain ⟨t, ht⟩ := wellFormed_head hp
    rw [ht]
    exact List.mem_cons_self _ _

/-! ### C1: the outputs are pairwise distinct -/

/-- C1: on pairwise-distinct well-formed input paths, whenever the function
returns, all output strings are pairwise distinct (in particular the
non-empty ones all differ from one another). -/
theorem c1_outputs_pairwise_distinct (fuel : Nat) (paths out : List PStr)
    (hwf : ∀ p ∈ paths, wellFormed p)
    (hdist : paths.Pairwise (· ≠ ·))
    (h : make_path_end_snippets_unique fuel paths = some out) :
    out.Pairwise (· ≠ ·) := by
  obtain ⟨hlen, hpt⟩ := make_char h
  rw [List.pairwise_iff_getElem]
  intro i j hi hj hij
  have hip : i < paths.length := by omega
  have hjp : j < paths.length := by omega
  obtain ⟨di, hdi, houti⟩ := hpt i hip
  obtain ⟨dj, hdj, houtj⟩ := hpt j hjp
  rw [getD_lt hi, getD_lt hip] at houti
  rw [getD_lt hj, getD_lt hjp] at houtj
  rw [getD_lt hip] at hdi
  rw [getD_lt hjp] at hdj
  rw [houti, houtj]
  have hpq : paths[i] ≠ paths[j] :=
    (List.pairwise_iff_getElem.mp hdist) i j hip hjp hij
  have hpwf : wellFormed paths[i] := hwf _ (List.getElem_mem _)
  have hqwf : wellFormed paths[j] := hwf _ (List.getElem_mem _)
  rw [depthFor_char] at hdi hdj
  by_cases hbij : basename paths[i] = basename paths[j]
  · have hmi : paths[i] ∈ paths.filter (fun x => basename x = basename paths[i]) :=
      List.mem_filter.mpr ⟨List.getElem_mem _, by simp⟩
    have hmj : paths[j] ∈ paths.filter (fun x => basename x = basename paths[i]) :=
      List.mem_filter.mpr ⟨List.getElem_mem _, by simp [hbij]⟩
    have hgrp : 1 < (paths.filter (fun x => basename x = basename paths[i])).length :=
      two_le_length_of_mem_ne hmi hmj hpq
    rw [if_pos hgrp] at hdi
    rw [← hbij] at hdj
    rw [if_pos hgrp] at hdj
    have hdidj : di = dj := by
      rw [hdi] at hdj
      injection hdj
    subst hdidj
    have hdpos : 0 < di :=
      rid_pos_of_dup (not_nodup_of_all_eq hgrp
        (fun x hx => by simpa using (List.mem_filter.mp hx).2)) hdi
    have hokg : ∀ r ∈ paths.filter (fun x => basename x = basename paths[i]),
        chainOK r := fun r hr => Or.inr (hwf r (List.mem_filter.mp hr).1)
    have hdiff : ∃ k, k ≤ di ∧ bnChain paths[i] k ≠ bnChain paths[j] k := by
      by_contra hcon
      push_neg at hcon
      have := rid_ge_agree fuel _ 0 di hokg (hdist.filter _) hdi
        paths[i] paths[j] hmi hmj hpq di hcon
      omega
    exact renderSnippet_ne hpwf hqwf hpq (by omega) hdiff
  · by_cases hdi0 : di = 0 <;> by_cases hdj0 : dj = 0
    · subst hdi0; subst hdj0
      rw [renderSnippet_zero, renderSnippet_zero]
      exact hbij
    · subst hdi0
      rw [renderSnippet_zero]
      intro hcon
      have := sep_mem_renderSnippet hqwf hdj0
      rw [← hcon] at this
      exact sep_not_mem_basename paths[i] this
    · subst hdj0
      rw [renderSnippet_zero]
      intro hcon
      have := sep_mem_renderSnippet hpwf hdi0
      rw [hcon] at this
      exact sep_not_mem_basename paths[j] this
    · intro hcon
      apply hbij
      rw [← basename_renderSnippet di paths[i], ← basename_renderSnippet dj paths[j],
        hcon]

/-- Witness for C1 at the second doctest input. -/
theorem c1_outputs_pairwise_distinct_witness :
    ([pstr "damon/photos", pstr "backup1/photos", pstr "backup2/photos"] :
        List PStr).Pairwise (· ≠ ·) :=
  c1_outputs_pairwise_distinct 100
    [pstr "/home/damon/photos", pstr "/media/damon/backup1/photos",
     pstr "/media/damon/backup2/photos"]
    [pstr "damon/photos", pstr "backup1/photos", pstr "backup2/photos"]
    (by decide) (by decide) (by decide)

/-! ### C8: machinery — snippets keep the basename chain up to their depth,
and re-rendering a snippet at the same depth is the identity -/

theorem splitSep_sep_cons_joinSep {l : List PStr} (hne : l ≠ [])
    (hfree : ∀ x ∈ l, sepC ∉ x) :
    splitSep (sepC :: joinSep l) = [] :: l := by
  rw [splitSep_cons, if_pos rfl, splitSep_joinSep hne hfree]

theorem drop_ne_nil_of_lt {l : List PStr} {i : Nat} (h : i < l.length) :
    l.drop i ≠ [] := by
  intro hc
  have := congrArg List.length hc
  rw [List.length_drop] at this
  simp at this
  omega

/-- The basename chain of a rendered snippet agrees with the path's chain
through every level up to the rendering depth (for all strings). -/
theorem bnChain_renderSnippet {p : PStr} {d k : Nat} (hk : k ≤ d) :
    bnChain (renderSnippet d p) k = bnChain p k := by
  by_cases hd : d = 0
  · subst hd
    have hk0 : k = 0 := by omega
    subst hk0
    rw [bnChain_zero, bnChain_zero, renderSnippet_zero, basename_basename]
  · rcases Nat.lt_or_ge ((splitSep p).length) (d + 2) with hle | hge
    · rw [renderSnippet_full_of_le hd (by omega)]
    · rcases Nat.lt_or_ge (d + 2) ((splitSep p).length) with hgt2 | hle2
      · -- index > 1: the snippet is the last d+1 segments
        have hj : (splitSep p).length - d - 1 < (splitSep p).length := by omega
        have hfree : ∀ x ∈ (splitSep p).drop ((splitSep p).length - d - 1),
            sepC ∉ x := fun x hx => sep_not_mem_splitSep p x (List.mem_of_mem_drop hx)
        have hsp : splitSep (renderSnippet d p) =
            (splitSep p).drop ((splitSep p).length - d - 1) := by
          rw [renderSnippet_drop_of_ge hd (by omega)]
          exact splitSep_joinSep (drop_ne_nil_of_lt hj) hfree
        rw [bnChain_eq, bnChain_eq, hsp]
        rw [List.length_drop]
        have hlen1 : 0 < (splitSep p).length - ((splitSep p).length - d - 1) - k := by
          omega
        rw [getLastD_take (by omega) (by rw [List.length_drop]; omega),
          getLastD_take (by omega) (by omega)]
        rw [List.getElem_drop]
        congr 1
        omega
      · -- index = 1: the snippet is the path with its first segment blanked
        have hn : (splitSep p).length = d + 2 := by omega
        have hd1 : 1 < (splitSep p).length := by omega
        have hfree : ∀ x ∈ (splitSep p).drop 1, sepC ∉ x :=
          fun x hx => sep_not_mem_splitSep p x (List.mem_of_mem_drop hx)
        have hsp : splitSep (renderSnippet d p) = [] :: (splitSep p).drop 1 := by
          rw [renderSnippet_sep_cons_of_eq hd hn]
          exact splitSep_sep_cons_joinSep (drop_ne_nil_of_lt hd1) hfree
        rw [bnChain_eq, bnChain_eq, hsp]
        have hlo : ([] :: (splitSep p).drop 1).length = (splitSep p).length := by
          simp only [List.length_cons, List.length_drop]
          omega
        rw [hlo]
        have hm2 : 2 ≤ (splitSep p).length - k := by omega
        have hb1 : (splitSep p).length - k - 1 < ([] :: (splitSep p).drop 1).length := by
          rw [hlo]
          omega
        have hb2 : (splitSep p).length - k - 2 < ((splitSep p).drop 1).length := by
          rw [List.length_drop]
          omega
        rw [getLastD_take (by omega) (by rw [hlo]; omega),
          getLastD_take (by omega) (by omega)]
        rw [← getD_lt hb1, ← getD_lt (by omega : (splitSep p).length - k - 1 < (splitSep p).length)]
        rw [show (splitSep p).length - k - 1 = ((splitSep p).length - k - 2) + 1 by omega]
        rw [List.getD_cons_succ]
        rw [getD_lt hb2, getD_lt (by omega : (splitSep p).length - k - 2 + 1 < (splitSep p).length)]
        rw [List.getElem_drop]
        congr 1
        omega

/-- Re-rendering a snippet at the depth that produced it returns it
unchanged (for all strings). -/
theorem renderSnippet_fix (d : Nat) (p : PStr) :
    renderSnippet d (renderSnippet d p) = renderSnippet d p := by
  by_cases hd : d = 0
  · subst hd
    rw [renderSnippet_zero, renderSnippet_zero, basename_basename]
  · rcases Nat.lt_or_ge ((splitSep p).length) (d + 2) with hle | hge
    · have h := renderSnippet_full_of_le hd (show (splitSep p).length ≤ d + 1 by omega)
      rw [h]
      exact h
    · rcases Nat.lt_or_ge (d + 2) ((splitSep p).length) with hgt2 | hle2
      · have hj : (splitSep p).length - d - 1 < (splitSep p).length := by omega
        have hfree : ∀ x ∈ (splitSep p).drop ((splitSep p).length - d - 1),
            sepC ∉ x := fun x hx => sep_not_mem_splitSep p x (List.mem_of_mem_drop hx)
        have h := renderSnippet_drop_of_ge hd
          (show d + 3 ≤ (splitSep p).length by omega)
        rw [h]
        apply renderSnippet_full_of_le hd
        rw [splitSep_joinSep (drop_ne_nil_of_lt hj) hfree, List.length_drop]
        omega
      · have hn : (splitSep p).length = d + 2 := by omega
        have hd1 : 1 < (splitSep p).length := by omega
        have hfree : ∀ x ∈ (splitSep p).drop 1, sepC ∉ x :=
          fun x hx => sep_not_mem_splitSep p x (List.mem_of_mem_drop hx)
        have h := renderSnippet_sep_cons_of_eq hd hn
        have hsp : splitSep (renderSnippet d p) = [] :: (splitSep p).drop 1 := by
          rw [h]
          exact splitSep_sep_cons_joinSep (drop_ne_nil_of_lt hd1) hfree
        have hlo : (splitSep (renderSnippet d p)).length = d + 2 := by
          rw [hsp]
          simp only [List.length_cons, List.length_drop]
          omega
        rw [renderSnippet_sep_cons_of_eq hd hlo, hsp, List.drop_one, List.tail_cons, h]

/-! ### C8: machinery — the depth recursion only probes basename chains up to
the returned depth, so it is congruent for chain-agreeing path lists -/

theorem forall₂_imp_mem {α β : Type _} {R S : α → β → Prop} {l1 : List α}
    {l2 : List β} (h : List.Forall₂ R l1 l2)
    (himp : ∀ a ∈ l1, ∀ b ∈ l2, R a b → S a b) : List.Forall₂ S l1 l2 := by
  induction h with
  | nil => exact List.Forall₂.nil
  | @cons a b l1' l2' h1 h2 ih =>
    refine List.Forall₂.cons
      (himp a (List.mem_cons_self _ _) b (List.mem_cons_self _ _) h1) ?_
    exact ih (fun x hx y hy hr =>
      himp x (List.mem_cons_of_mem _ hx) y (List.mem_cons_of_mem _ hy) hr)

theorem occurrencesOf_rel {R : PStr → PStr → Prop} (b : PStr) :
    ∀ (bns ps qs : List PStr), bns.length = ps.length → List.Forall₂ R ps qs →
    List.Forall₂ R (occurrencesOf b (bns.zip ps)) (occurrencesOf b (bns.zip qs)) := by
  intro bns
  induction bns with
  | nil =>
    intro ps qs _ _
    simp only [occurrencesOf, List.zip_nil_left, List.filter_nil, List.map_nil]
    exact List.Forall₂.nil
  | cons b0 bns ihb =>
    intro ps qs hlen hrel
    cases hrel with
    | nil => simp at hlen
    | @cons p q ps' qs' hpq hrest =>
      simp only [List.zip_cons_cons, occurrencesOf, List.filter_cons]
      by_cases hb : b0 = b
      · rw [if_pos (by simpa using hb), if_pos (by simpa using hb)]
        simp only [List.map_cons]
        refine List.Forall₂.cons hpq ?_
        have := ihb ps' qs' (by simpa using hlen) hrest
        simpa [occurrencesOf] using this
      · rw [if_neg (by simpa using hb), if_neg (by simpa using hb)]
        have := ihb ps' qs' (by simpa using hlen) hrest
        simpa [occurrencesOf] using this

theorem collectDuplicates_rel {R : PStr → PStr → Prop} (bns ps qs : List PStr)
    (hlen : bns.length = ps.length) (hrel : List.Forall₂ R ps qs) :
    List.Forall₂ (fun g g' => g.1 = g'.1 ∧ List.Forall₂ R g.2 g'.2)
      (collectDuplicates bns ps) (collectDuplicates bns qs) := by
  unfold collectDuplicates
  have key : ∀ keys : List PStr,
      List.Forall₂ (fun g g' => g.1 = g'.1 ∧ List.Forall₂ R g.2 g'.2)
        ((keys.map (fun b => (b, occurrencesOf b (bns.zip ps)))).filter
          (fun g => 1 < g.2.length))
        ((keys.map (fun b => (b, occurrencesOf b (bns.zip qs)))).filter
          (fun g => 1 < g.2.length)) := by
    intro keys
    induction keys with
    | nil => exact List.Forall₂.nil
    | cons k keys ihk =>
      simp only [List.map_cons, List.filter_cons]
      have hocc := occurrencesOf_rel k bns ps qs hlen hrel
      have hol : (occurrencesOf k (bns.zip ps)).length =
          (occurrencesOf k (bns.zip qs)).length := hocc.length_eq
      by_cases hc : 1 < (occurrencesOf k (bns.zip ps)).length
      · rw [if_pos (by simpa using hc), if_pos (by simp; omega)]
        exact List.Forall₂.cons ⟨rfl, hocc⟩ ihk
      · rw [if_neg (by simpa using hc), if_neg (by simp; omega)]
        exact ihk
  exact key (firstOccs bns)

theorem ridGroups_cong {fuel res δ0 : Nat}
    (ihc : ∀ ps qs δ' res',
      List.Forall₂ (fun p q => ∀ k, δ' + k ≤ res' → bnChain p k = bnChain q k) ps qs →
      rid fuel ps δ' = some res' → rid fuel qs δ' = some res') :
    ∀ {groupsP groupsQ : List (PStr × List PStr)},
    List.Forall₂ (fun g g' => g.1 = g'.1 ∧
      List.Forall₂ (fun p q => ∀ k, δ0 + k ≤ res → bnChain p k = bnChain q k) g.2 g'.2)
      groupsP groupsQ →
    ∀ δ, δ0 ≤ δ →
    (∀ g ∈ groupsP, ∀ m ∈ g.2, basename m = g.1) →
    ridGroups (fun ps d => rid fuel ps d) groupsP δ = some res →
    ridGroups (fun ps d => rid fuel ps d) groupsQ δ = some res := by
  intro groupsP groupsQ hrel
  induction hrel with
  | nil => intro δ _ _ h; exact h
  | @cons gP gQ restP restQ h1 h2 ih =>
    intro δ hδ hbn h
    obtain ⟨bP, msP⟩ := gP
    obtain ⟨bQ, msQ⟩ := gQ
    obtain ⟨hkeyEq, hmsRel⟩ := h1
    simp only at hkeyEq
    subst hkeyEq
    cases hsub : rid fuel (msP.map (chopPath bP)) (δ + 1) with
    | none =>
      simp only [ridGroups, hsub] at h
      exact Option.noConfusion h
    | some r =>
      simp only [ridGroups, hsub] at h
      have hr_le : r ≤ res := by
        have := ridGroups_ge (fun ps d r' h' => rid_ge_depth fuel ps d r' h') restP _ _ h
        omega
      have hδ1r : δ + 1 ≤ r := rid_ge_depth _ _ _ _ hsub
      have hbmem : ∀ m ∈ msP, basename m = bP :=
        fun m hm => hbn (bP, msP) (List.mem_cons_self _ _) m hm
      have hchoprel : List.Forall₂
          (fun p q => ∀ k, (δ + 1) + k ≤ r → bnChain p k = bnChain q k)
          (msP.map (chopPath bP)) (msQ.map (chopPath bP)) := by
        rw [List.forall₂_map_left_iff, List.forall₂_map_right_iff]
        refine forall₂_imp_mem hmsRel ?_
        intro m hm q hq hmq k hkr
        have hbm : basename m = bP := hbmem m hm
        have hbq : basename q = bP := by
          have h0 := hmq 0 (by omega)
          rw [bnChain_zero, bnChain_zero] at h0
          rw [← h0]
          exact hbm
        rw [show chopPath bP m = chopPath (basename m) m by rw [hbm],
          show chopPath bP q = chopPath (basename q) q by rw [hbq],
          bnChain_chop, bnChain_chop]
        exact hmq (k + 1) (by omega)
      have hsubQ : rid fuel (msQ.map (chopPath bP)) (δ + 1) = some r :=
        ihc _ _ _ _ hchoprel hsub
      simp only [ridGroups, hsubQ]
      exact ih (max δ r) (by omega)
        (fun g hg m hm => hbn g (List.mem_cons_of_mem _ hg) m hm) h

/-- Congruence: `_recursive_identify_depth` depends only on the basename
chains of its paths up to the returned depth. -/
theorem rid_cong : ∀ fuel ps qs δ res,
    List.Forall₂ (fun p q => ∀ k, δ + k ≤ res → bnChain p k = bnChain q k) ps qs →
    rid fuel ps δ = some res → rid fuel qs δ = some res := by
  intro fuel
  induction fuel with
  | zero => intro ps qs δ res _ h; exact Option.noConfusion h
  | succ fuel ih =>
    intro ps qs δ res hrel h
    have hδres : δ ≤ res := rid_ge_depth _ _ _ _ h
    have hbneq : qs.map basename = ps.map basename := by
      have hlen := hrel.length_eq
      apply List.ext_getElem (by simp [hlen])
      intro i h1 h2
      rw [List.getElem_map, List.getElem_map]
      have hpt := (List.forall₂_iff_get.mp hrel).2 i (by simpa using h2)
        (by simpa using h1)
      have h0 := hpt 0 (by omega)
      rw [bnChain_zero, bnChain_zero] at h0
      exact h0.symm
    simp only [rid] at h ⊢
    rw [hbneq]
    by_cases hnd : (ps.map basename).Nodup
    · rw [if_pos hnd] at h ⊢
      exact h
    · rw [if_neg hnd] at h ⊢
      have hgrel := collectDuplicates_rel (ps.map basename) ps qs (by simp) hrel
      refine ridGroups_cong (fun ps' qs' δ' res' hr h' => ih ps' qs' δ' res' hr h')
        hgrel δ (le_refl δ) ?_ h
      intro g hg m hm
      obtain ⟨hg2, -⟩ := mem_collectDuplicates hg
      rw [hg2] at hm
      simpa using (List.mem_filter.mp hm).2

/-! ### C8: feeding the outputs back returns them unchanged -/

theorem forall₂_filter_basename {R : PStr → PStr → Prop}
    (hR : ∀ p o, R p o → basename o = basename p) (b : PStr) :
    ∀ {ps os : List PStr}, List.Forall₂ R ps os →
    List.Forall₂ R (ps.filter (fun x => basename x = b))
      (os.filter (fun x => basename x = b)) := by
  intro ps os h
  induction h with
  | nil => exact List.Forall₂.nil
  | @cons p o ps' os' h1 h2 ih =>
    simp only [List.filter_cons]
    have hbo := hR p o h1
    by_cases hb : basename p = b
    · rw [if_pos (by simpa using hb), if_pos (by simp [hbo, hb])]
      exact List.Forall₂.cons h1 ih
    · rw [if_neg (by simpa using hb), if_neg (by simp [hbo, hb])]
      exact ih

/-- C8: if the function returns an output list whose strings are pairwise
unique, feeding those strings back in returns them unchanged (no further
deepening: the refeed resolves each group to the same depth, and re-rendering
a snippet is the identity). -/
theorem c8_refeed_fixed (fuel : Nat) (paths out : List PStr)
    (h : make_path_end_snippets_unique fuel paths = some out)
    (huniq : out.Pairwise (· ≠ ·)) :
    make_path_end_snippets_unique fuel out = some out := by
  by_cases hnd : (paths.map basename).Nodup
  · simp only [make_path_end_snippets_unique] at h
    rw [if_pos hnd] at h
    simp only [Option.some.injEq] at h
    subst h
    have hbb : (paths.map basename).map basename = paths.map basename := by
      rw [List.map_map]
      exact List.map_congr_left (fun a _ => basename_basename a)
    simp only [make_path_end_snippets_unique]
    rw [hbb, if_pos hnd]
  · have hmain := h
    simp only [make_path_end_snippets_unique] at hmain
    rw [if_neg hnd] at hmain
    have hall := mapOption_eq_some_iff.mp hmain
    have hall' : List.Forall₂ (fun p o => ∃ d,
        depthFor fuel (collectDuplicates (paths.map basename) paths)
          (basename p) = some d ∧ o = renderSnippet d p) paths out := by
      refine hall.imp ?_
      intro p o hpo
      cases hd : depthFor fuel (collectDuplicates (paths.map basename) paths)
          (basename p) with
      | none => rw [hd] at hpo; simp at hpo
      | some d =>
        rw [hd] at hpo
        simp only [Option.map_some', Option.some.injEq] at hpo
        exact ⟨d, rfl, hpo.symm⟩
    have hRb : ∀ p o, (∃ d,
        depthFor fuel (collectDuplicates (paths.map basename) paths)
          (basename p) = some d ∧ o = renderSnippet d p) →
        basename o = basename p := by
      rintro p o ⟨d, -, rfl⟩
      exact basename_renderSnippet d p
    have hbn_out : out.map basename = paths.map basename := by
      have hlen := hall'.length_eq
      apply List.ext_getElem (by simp [hlen])
      intro i h1 h2
      rw [List.getElem_map, List.getElem_map]
      have hpt := (List.forall₂_iff_get.mp hall').2 i (by simpa using h2)
        (by simpa using h1)
      obtain ⟨d, -, ho⟩ := hpt
      simp only [List.get_eq_getElem] at ho
      rw [ho, basename_renderSnippet]
    obtain ⟨hlen, hchar⟩ := make_char h
    simp only [make_path_end_snippets_unique]
    rw [if_neg (by rw [hbn_out]; exact hnd)]
    apply mapOption_eq_some_iff.mpr
    rw [List.forall₂_same]
    intro o ho
    obtain ⟨i, hi, rfl⟩ := List.mem_iff_getElem.mp ho
    have hip : i < paths.length := by omega
    obtain ⟨d, hd, hout⟩ := hchar i hip
    rw [getD_lt (by omega : i < out.length), getD_lt hip] at hout
    rw [getD_lt hip] at hd
    have hbo : basename out[i] = basename paths[i] := by
      rw [hout, basename_renderSnippet]
    rw [hbo]
    rw [depthFor_char] at hd ⊢
    have hgroups := forall₂_filter_basename hRb (basename paths[i]) hall'
    have hglen := hgroups.length_eq
    by_cases hdup : 1 < (paths.filter
        (fun x => basename x = basename paths[i])).length
    · rw [if_pos hdup] at hd
      rw [if_pos (by omega)]
      have hgrel : List.Forall₂
          (fun p' o' => ∀ k, 0 + k ≤ d → bnChain p' k = bnChain o' k)
          (paths.filter (fun x => basename x = basename paths[i]))
          (out.filter (fun x => basename x = basename paths[i])) := by
        refine forall₂_imp_mem hgroups ?_
        rintro p' hp' o' ho' ⟨d', hd', rfl⟩ k hk
        have hbp' : basename p' = basename paths[i] := by
          simpa using (List.mem_filter.mp hp').2
        rw [hbp'] at hd'
        rw [depthFor_char, if_pos hdup] at hd'
        rw [hd] at hd'
        injection hd' with hd'e
        subst hd'e
        exact (bnChain_renderSnippet (by omega)).symm
      have hridout := rid_cong fuel _ _ 0 d hgrel hd
      rw [hridout]
      have hfix : renderSnippet d out[i] = out[i] := by
        rw [hout, renderSnippet_fix]
      rw [Option.map_some', hfix]
    · rw [if_neg hdup] at hd
      rw [if_neg (by omega)]
      injection hd with hde
      subst hde
      have : out[i] = basename paths[i] := by rw [hout, renderSnippet_zero]
      rw [Option.map_some', renderSnippet_zero, this, basename_basename]

/-- Witness for C8 at the second doctest input. -/
theorem c8_refeed_fixed_witness :
    make_path_end_snippets_unique 100
        [pstr "damon/photos", pstr "backup1/photos", pstr "backup2/photos"] =
      some [pstr "damon/photos", pstr "backup1/photos", pstr "backup2/photos"] :=
  c8_refeed_fixed 100
    [pstr "/home/damon/photos", pstr "/media/damon/backup1/photos",
     pstr "/media/damon/backup2/photos"]
    [pstr "damon/photos", pstr "backup1/photos", pstr "backup2/photos"]
    (by decide) (by decide)

/-! ### C10: machinery — the depth recursion is shift-covariant in its depth
argument and permutation-invariant in its path list -/

theorem rid_zero (ps : List PStr) (δ : Nat) : rid 0 ps δ = none := rfl

/-- Normal form of the group fold: an `Option`-valued sum of the sub-group
results, each offset by one. -/
def ridFold (vl : List (Option Nat)) : Option Nat :=
  vl.foldr (fun o acc => o.bind (fun e => acc.map (fun a => e + 1 + a))) (some 0)

theorem ridGroups_shift {fuel : Nat}
    (hsh : ∀ ps δ, rid fuel ps δ = (rid fuel ps 0).map (· + δ)) :
    ∀ groups x δ, ridGroups (fun ps d => rid fuel ps d) groups (x + δ) =
      (ridGroups (fun ps d => rid fuel ps d) groups x).map (· + δ) := by
  intro groups
  induction groups with
  | nil => intro x δ; simp [ridGroups]
  | cons g rest ih =>
    intro x δ
    rcases g with ⟨b, ms⟩
    have h1 := hsh (ms.map (chopPath b)) (x + δ + 1)
    have h2 := hsh (ms.map (chopPath b)) (x + 1)
    cases h0 : rid fuel (ms.map (chopPath b)) 0 with
    | none =>
      rw [h0] at h1 h2
      simp only [Option.map_none'] at h1 h2
      simp only [ridGroups, h1, h2]
      rfl
    | some e =>
      rw [h0] at h1 h2
      simp only [Option.map_some'] at h1 h2
      simp only [ridGroups, h1, h2]
      rw [show max (x + δ) (e + (x + δ + 1)) = (max x (e + (x + 1))) + δ by omega]
      exact ih _ δ

theorem rid_shift : ∀ fuel ps δ, rid fuel ps δ = (rid fuel ps 0).map (· + δ) := by
  intro fuel
  induction fuel with
  | zero => intro ps δ; rfl
  | succ fuel ih =>
    intro ps δ
    simp only [rid]
    by_cases hnd : (ps.map basename).Nodup
    · rw [if_pos hnd, if_pos hnd]
      simp
    · rw [if_neg hnd, if_neg hnd]
      have := ridGroups_shift ih (collectDuplicates (ps.map basename) ps) 0 δ
      rw [show (0 : Nat) + δ = δ by omega] at this
      exact this

theorem ridFold_nil : ridFold [] = some 0 := rfl

theorem ridFold_cons (x : Option Nat) (l : List (Option Nat)) :
    ridFold (x :: l) = x.bind (fun e => (ridFold l).map (fun a => e + 1 + a)) := rfl

theorem ridGroups_eq_fold {fuel : Nat} :
    ∀ groups δ, ridGroups (fun ps d => rid fuel ps d) groups δ =
      (ridFold (groups.map (fun g => rid fuel (g.2.map (chopPath g.1)) 0))).map
        (fun a => δ + a) := by
  intro groups
  induction groups with
  | nil => intro δ; simp [ridGroups, ridFold_nil]
  | cons g rest ih =>
    intro δ
    rcases g with ⟨b, ms⟩
    have hsh := rid_shift fuel (ms.map (chopPath b)) (δ + 1)
    cases h0 : rid fuel (ms.map (chopPath b)) 0 with
    | none =>
      rw [h0] at hsh
      simp only [Option.map_none'] at hsh
      simp only [ridGroups, hsh, List.map_cons, h0, ridFold_cons]
      rfl
    | some e =>
      rw [h0] at hsh
      simp only [Option.map_some'] at hsh
      simp only [ridGroups, hsh, List.map_cons, h0, ridFold_cons]
      rw [show max δ (e + (δ + 1)) = δ + e + 1 by omega, ih]
      cases hrv : ridFold (rest.map (fun g => rid fuel (g.2.map (chopPath g.1)) 0)) with
      | none => rfl
      | some a =>
        simp only [Option.map_some', Option.some_bind]
        rw [Option.some.injEq]
        omega

theorem ridFold_perm {vl1 vl2 : List (Option Nat)} (h : vl1.Perm vl2) :
    ridFold vl1 = ridFold vl2 := by
  induction h with
  | nil => rfl
  | cons x h ih => rw [ridFold_cons, ridFold_cons, ih]
  | swap x y l =>
    rw [ridFold_cons, ridFold_cons, ridFold_cons, ridFold_cons]
    cases x with
    | none => cases y <;> rfl
    | some ex =>
      cases y with
      | none => rfl
      | some ey =>
        cases hl : ridFold l with
        | none => rfl
        | some a =>
          simp only [Option.map_some', Option.some_bind, Option.some.injEq]
          omega
  | trans h1 h2 ih1 ih2 => exact ih1.trans ih2

theorem keys_nodup (ps : List PStr) :
    ((collectDuplicates (ps.map basename) ps).map Prod.fst).Nodup := by
  unfold collectDuplicates
  have hsub : (((firstOccs (ps.map basename)).map
        (fun b => (b, occurrencesOf b ((ps.map basename).zip ps)))).filter
      (fun g => 1 < g.2.length)).map Prod.fst |>.Sublist
      (firstOccs (ps.map basename)) := by
    have h1 : (((firstOccs (ps.map basename)).map
          (fun b => (b, occurrencesOf b ((ps.map basename).zip ps)))).filter
        (fun g => 1 < g.2.length)).Sublist
        ((firstOccs (ps.map basename)).map
          (fun b => (b, occurrencesOf b ((ps.map basename).zip ps)))) :=
      List.filter_sublist _
    have h2 := h1.map Prod.fst
    rw [List.map_map] at h2
    rw [show (Prod.fst ∘ fun b =>
        (b, occurrencesOf b ((ps.map basename).zip ps))) = id from rfl,
      List.map_id] at h2
    exact h2
  exact (nodup_firstOccs _).sublist hsub

theorem mem_keys_iff (ps : List PStr) (b : PStr) :
    b ∈ (collectDuplicates (ps.map basename) ps).map Prod.fst ↔
      1 < (ps.filter (fun x => basename x = b)).length := by
  constructor
  · rintro hmem
    rcases List.mem_map.mp hmem with ⟨g, hg, rfl⟩
    obtain ⟨hg2, hglen⟩ := mem_collectDuplicates hg
    rw [hg2] at hglen
    exact hglen
  · intro hlen
    exact List.mem_map.mpr ⟨_, group_mem_collectDuplicates hlen, rfl⟩

/-- `_recursive_identify_depth` is invariant under permutations of its path
list: the accumulated depth is an order-independent sum over the duplicate
groups. -/
theorem rid_perm : ∀ fuel ps qs δ, ps.Perm qs → rid fuel ps δ = rid fuel qs δ := by
  intro fuel
  induction fuel with
  | zero => intro ps qs δ _; rfl
  | succ fuel ih =>
    intro ps qs δ hperm
    have hbp : (ps.map basename).Perm (qs.map basename) := hperm.map basename
    simp only [rid]
    by_cases hnd : (ps.map basename).Nodup
    · rw [if_pos hnd, if_pos (hbp.nodup_iff.mp hnd)]
    · rw [if_neg hnd, if_neg (fun hc => hnd (hbp.nodup_iff.mpr hc))]
      rw [ridGroups_eq_fold, ridGroups_eq_fold]
      congr 1
      apply ridFold_perm
      have hvalsP : (collectDuplicates (ps.map basename) ps).map
          (fun g => rid fuel (g.2.map (chopPath g.1)) 0) =
          ((collectDuplicates (ps.map basename) ps).map Prod.fst).map
            (fun b => rid fuel
              ((ps.filter (fun x => basename x = b)).map (chopPath b)) 0) := by
        rw [List.map_map]
        apply List.map_congr_left
        intro g hg
        obtain ⟨hg2, -⟩ := mem_collectDuplicates hg
        simp only [Function.comp]
        rw [hg2]
      have hvalsQ : (collectDuplicates (qs.map basename) qs).map
          (fun g => rid fuel (g.2.map (chopPath g.1)) 0) =
          ((collectDuplicates (qs.map basename) qs).map Prod.fst).map
            (fun b => rid fuel
              ((ps.filter (fun x => basename x = b)).map (chopPath b)) 0) := by
        rw [List.map_map]
        apply List.map_congr_left
        intro g hg
        obtain ⟨hg2, -⟩ := mem_collectDuplicates hg
        simp only [Function.comp]
        rw [hg2]
        exact ih _ _ 0 (((hperm.symm).filter _).map _)
      rw [hvalsP, hvalsQ]
      apply List.Perm.map
      apply (List.perm_ext_iff_of_nodup (keys_nodup ps) (keys_nodup qs)).mpr
      intro b
      rw [mem_keys_iff ps b, mem_keys_iff qs b]
      have := (hperm.filter (fun x => decide (basename x = b))).length_eq
      omega

theorem mapOption_map {α β γ : Type _} (f : β → Option γ) (g : α → β)
    (l : List α) : mapOption f (l.map g) = mapOption (fun a => f (g a)) l := by
  induction l with
  | nil => rfl
  | cons a l ih => simp only [List.map_cons, mapOption, ih]

theorem mapOption_congr {α β : Type _} {f g : α → Option β} {l : List α}
    (h : ∀ a ∈ l, f a = g a) : mapOption f l = mapOption g l := by
  induction l with
  | nil => rfl
  | cons a l ih =>
    simp only [mapOption, h a (List.mem_cons_self _ _),
      ih (fun x hx => h x (List.mem_cons_of_mem _ hx))]

theorem map_getD_range (l : List PStr) :
    (List.range l.length).map (fun i => l.getD i []) = l := by
  apply List.ext_getElem (by simp)
  intro i h1 h2
  rw [List.getElem_map, List.getElem_range, getD_lt h2]

/-! ### C10: permutation equivariance of the whole function -/

/-- C10: applying the function to a permuted input yields the identically
permuted output: each path receives the same snippet regardless of its
position.  The permutation is given as a list of indices `is` that permutes
`range paths.length`. -/
theorem c10_permutation_equivariant (fuel : Nat) (paths out : List PStr)
    (h : make_path_end_snippets_unique fuel paths = some out)
    (is : List Nat) (hperm : is.Perm (List.range paths.length)) :
    make_path_end_snippets_unique fuel (is.map (fun i => paths.getD i [])) =
      some (is.map (fun i => out.getD i [])) := by
  have hmemlt : ∀ i ∈ is, i < paths.length := fun i hi =>
    List.mem_range.mp (hperm.mem_iff.mp hi)
  have hpermpaths : (is.map (fun i => paths.getD i [])).Perm paths := by
    have h1 := map_getD_range paths
    have h2 := hperm.map (fun i => paths.getD i [])
    rw [h1] at h2
    exact h2
  obtain ⟨hlen, hchar⟩ := make_char h
  have hbnperm : ((is.map (fun i => paths.getD i [])).map basename).Perm
      (paths.map basename) := hpermpaths.map basename
  simp only [make_path_end_snippets_unique]
  by_cases hnd : (paths.map basename).Nodup
  · rw [if_pos (hbnperm.nodup_iff.mpr hnd)]
    have hout : out = paths.map basename := by
      have h' := h
      simp only [make_path_end_snippets_unique] at h'
      rw [if_pos hnd] at h'
      simp only [Option.some.injEq] at h'
      exact h'.symm
    congr 1
    rw [List.map_map]
    apply List.map_congr_left
    intro i hi
    have hilt := hmemlt i hi
    simp only [Function.comp]
    rw [hout, getD_lt hilt,
      getD_lt (show i < (paths.map basename).length by simpa using hilt),
      List.getElem_map]
  · rw [if_neg (fun hc => hnd (hbnperm.nodup_iff.mp hc))]
    have hdepth : ∀ b, depthFor fuel (collectDuplicates
        ((is.map (fun i => paths.getD i [])).map basename)
        (is.map (fun i => paths.getD i []))) b =
        depthFor fuel (collectDuplicates (paths.map basename) paths) b := by
      intro b
      rw [depthFor_char, depthFor_char]
      have hfperm := hpermpaths.filter (fun x => decide (basename x = b))
      have hflen := hfperm.length_eq
      by_cases hc : 1 < (paths.filter (fun x => basename x = b)).length
      · rw [if_pos (by omega), if_pos hc]
        exact rid_perm fuel _ _ 0 hfperm
      · rw [if_neg (by omega), if_neg hc]
    rw [mapOption_congr (fun p _ => by rw [hdepth (basename p)])]
    rw [mapOption_map]
    apply mapOption_eq_some_iff.mpr
    rw [List.forall₂_map_right_iff, List.forall₂_same]
    intro i hi
    have hilt := hmemlt i hi
    obtain ⟨d, hd, hout⟩ := hchar i hilt
    rw [hd, Option.map_some', ← hout]

/-- Witness for C10: reversing the scenario-2 input permutes its output. -/
theorem c10_permutation_equivariant_witness :
    make_path_end_snippets_unique 100
        ([2, 1, 0].map (fun i =>
          ([pstr "/home/damon/photos", pstr "/media/damon/backup1/photos",
            pstr "/media/damon/backup2/photos"] : List PStr).getD i [])) =
      some ([2, 1, 0].map (fun i =>
        ([pstr "damon/photos", pstr "backup1/photos", pstr "backup2/photos"] :
          List PStr).getD i [])) :=
  c10_permutation_equivariant 100
    [pstr "/home/damon/photos", pstr "/media/damon/backup1/photos",
     pstr "/media/damon/backup2/photos"]
    [pstr "damon/photos", pstr "backup1/photos", pstr "backup2/photos"]
    (by decide) [2, 1, 0] (by decide)

end RPD
